import Mathlib

/-!
Verification development for the operator-algebra and linearization engine of
the NIFTy repository (nifty5/nifty6 core modules).

The Python sources embedded here:
  * `nifty5/multi_domain.py` (`MultiDomain.__init__`, `MultiDomain.make`,
    `MultiDomain.union`),
  * `nifty6/operators/operator.py` (`Operator`, `_ConstCollector`,
    `_ConstantOperator`, `_FunctionApplier`, `_CombinedOperator`, `_OpChain`,
    `_OpProd`, `_OpSum`),
  * `nifty6/operators/operator_adapter.py` (`OperatorAdapter`),
  * `nifty5/linearization.py` (`Linearization`),
  * `nifty6/pointwise.py` (the elementwise function registry entries used).

Helper modules that the repository snapshot does not ship (`multi_field.py`,
`field.py`, `sugar.py`, `linear_operator.py`, the concrete operator leaves)
are modelled from the specification; each such definition carries a doc
comment starting with "Modelled from the spec:".

Machine integers do not appear in the modelled code paths; array contents are
modelled by a single representative component living in an arbitrary
commutative ring `R` (all array operations in the modelled code are
elementwise), instantiated with `ℚ` or `ℝ` in concrete scenarios.
-/

namespace Nifty

/-- DomainTuple objects are interned in a process-wide cache keyed by content,
so equality of DomainTuples can be decided by identity.  The embedding
therefore represents a DomainTuple by an opaque identifier; no claim inspects
the internal structure (shape/size) of a DomainTuple. -/
abbrev DomainTuple := ℕ

/-- Key order used by `sorted()` on Python strings: lexicographic comparison
of the code-point sequences.  Stated on `String.data` so that it is
kernel-decidable; `keyLt_iff` identifies it with the library order. -/
def keyLt (a b : String) : Prop := a.data < b.data

instance keyLtDec : ∀ a b : String, Decidable (keyLt a b) := fun a b =>
  inferInstanceAs (Decidable (a.data < b.data))

theorem keyLt_iff (a b : String) : keyLt a b ↔ a < b := by
  rw [String.lt_iff_toList_lt]
  exact Iff.rfl

theorem keyLt_trans {a b c : String} (h1 : keyLt a b) (h2 : keyLt b c) :
    keyLt a c := by
  rw [keyLt_iff] at *
  exact lt_trans h1 h2

theorem keyLt_asymm {a b : String} (h : keyLt a b) : ¬ keyLt b a := by
  rw [keyLt_iff] at *
  exact lt_asymm h

theorem keyLt_irrefl (a : String) : ¬ keyLt a a := by
  rw [keyLt_iff]
  exact lt_irrefl a

theorem keyLt_total_eq {a b : String} (h1 : ¬ keyLt a b) (h2 : ¬ keyLt b a) :
    a = b := by
  rw [keyLt_iff] at h1 h2
  exact le_antisymm (not_lt.mp h2) (not_lt.mp h1)

theorem keyLt_ne {a b : String} (h : keyLt a b) : a ≠ b := by
  intro he
  subst he
  exact keyLt_irrefl a h

/-- Association lists over string keys; the raw representation underlying the
python dictionaries keyed by field names. -/
abbrev AL (α : Type) := List (String × α)

/-- Strict sortedness by key: the invariant established by
`MultiDomain.__init__` (`self._keys = tuple(sorted(dict.keys()))`). -/
def ALSorted {α : Type} (l : AL α) : Prop := l.Pairwise (fun p q => keyLt p.1 q.1)

/-- Dictionary lookup. -/
def lookA {α : Type} : AL α → String → Option α
  | [], _ => none
  | p :: ps, k => if p.1 = k then some p.2 else lookA ps k

/-- Ordered insert combining an existing binding for the same key with `f`
(new value first); the workhorse for dict construction and dict merging. -/
def insW {α : Type} (f : α → α → α) (p : String × α) : AL α → AL α
  | [] => [p]
  | q :: qs =>
    if keyLt p.1 q.1 then p :: q :: qs
    else if keyLt q.1 p.1 then q :: insW f p qs
    else (p.1, f p.2 q.2) :: qs

theorem insW_nil {α : Type} (f : α → α → α) (p : String × α) :
    insW f p [] = [p] := rfl

theorem insW_cons {α : Type} (f : α → α → α) (p q : String × α) (qs : AL α) :
    insW f p (q :: qs) =
      if keyLt p.1 q.1 then p :: q :: qs
      else if keyLt q.1 p.1 then q :: insW f p qs
      else (p.1, f p.2 q.2) :: qs := rfl

theorem lookA_nil {α : Type} (k : String) : lookA ([] : AL α) k = none := rfl

theorem lookA_cons {α : Type} (p : String × α) (ps : AL α) (k : String) :
    lookA (p :: ps) k = if p.1 = k then some p.2 else lookA ps k := rfl

theorem lookA_none_iff {α : Type} (l : AL α) (k : String) :
    lookA l k = none ↔ ∀ r ∈ l, r.1 ≠ k := by
  induction l with
  | nil => simp [lookA_nil]
  | cons r rs ih =>
    rw [lookA_cons]
    by_cases hr : r.1 = k
    · simp [hr]
    · simp only [hr, if_neg, not_false_iff, ih]
      simp [hr]

theorem mem_keys_of_lookA_some {α : Type} {l : AL α} {k : String} {v : α}
    (h : lookA l k = some v) : k ∈ l.map Prod.fst := by
  induction l with
  | nil => simp [lookA_nil] at h
  | cons r rs ih =>
    rw [lookA_cons] at h
    by_cases hr : r.1 = k
    · simp [hr]
    · rw [if_neg hr] at h
      simp [ih h]

theorem lookA_some_of_mem_keys {α : Type} {l : AL α} {k : String}
    (h : k ∈ l.map Prod.fst) : ∃ v, lookA l k = some v := by
  induction l with
  | nil => simp at h
  | cons r rs ih =>
    rw [lookA_cons]
    by_cases hr : r.1 = k
    · exact ⟨r.2, by rw [if_pos hr]⟩
    · rw [if_neg hr]
      apply ih
      rcases List.mem_map.mp h with ⟨s, hs, he⟩
      rcases List.mem_cons.mp hs with hs | hs
      · exact absurd (hs ▸ he) hr
      · exact List.mem_map.mpr ⟨s, hs, he⟩

theorem insW_keys {α : Type} (f : α → α → α) (p : String × α) (l : AL α) (k : String) :
    (k ∈ (insW f p l).map Prod.fst) ↔ k = p.1 ∨ k ∈ l.map Prod.fst := by
  induction l with
  | nil => simp [insW_nil]
  | cons q qs ih =>
    by_cases h1 : keyLt p.1 q.1
    · rw [insW_cons, if_pos h1]
      simp only [List.map_cons, List.mem_cons]
    · by_cases h2 : keyLt q.1 p.1
      · rw [insW_cons, if_neg h1, if_pos h2]
        simp only [List.map_cons, List.mem_cons, ih]
        tauto
      · have he := keyLt_total_eq h1 h2
        rw [insW_cons, if_neg h1, if_neg h2]
        simp only [List.map_cons, List.mem_cons]
        constructor
        · intro hh
          rcases hh with hh | hh
          · exact Or.inl hh
          · exact Or.inr (Or.inr hh)
        · intro hh
          rcases hh with hh | hh | hh
          · exact Or.inl hh
          · exact Or.inl (by rw [hh, ← he])
          · exact Or.inr hh

theorem insW_sorted {α : Type} (f : α → α → α) (p : String × α) (l : AL α)
    (h : ALSorted l) : ALSorted (insW f p l) := by
  induction l with
  | nil => simp [insW_nil, ALSorted]
  | cons q qs ih =>
    rw [ALSorted, List.pairwise_cons] at h
    by_cases h1 : keyLt p.1 q.1
    · rw [ALSorted, insW_cons, if_pos h1, List.pairwise_cons]
      refine ⟨?_, ?_⟩
      · intro r hr
        rcases List.mem_cons.mp hr with hr | hr
        · rw [hr]
          exact h1
        · exact keyLt_trans h1 (h.1 r hr)
      · rw [List.pairwise_cons]
        exact h
    · by_cases h2 : keyLt q.1 p.1
      · rw [ALSorted, insW_cons, if_neg h1, if_pos h2, List.pairwise_cons]
        refine ⟨?_, ih h.2⟩
        intro r hr
        have hrk : r.1 ∈ (insW f p qs).map Prod.fst := List.mem_map_of_mem Prod.fst hr
        rcases (insW_keys f p qs r.1).mp hrk with hk | hk
        · rw [hk]
          exact h2
        · rcases List.mem_map.mp hk with ⟨r', hr', he⟩
          exact he ▸ h.1 r' hr'
      · have he := keyLt_total_eq h1 h2
        rw [ALSorted, insW_cons, if_neg h1, if_neg h2, List.pairwise_cons]
        refine ⟨?_, h.2⟩
        intro r hr
        show keyLt p.1 r.1
        rw [he]
        exact h.1 r hr

theorem insW_lookA {α : Type} (f : α → α → α) (p : String × α) (l : AL α)
    (h : ALSorted l) (k : String) :
    lookA (insW f p l) k =
      if k = p.1 then
        (match lookA l k with
         | some old => some (f p.2 old)
         | none => some p.2)
      else lookA l k := by
  induction l with
  | nil =>
    by_cases hk : k = p.1
    · rw [insW_nil, lookA_cons, if_pos hk.symm, lookA_nil, if_pos hk]
    · rw [insW_nil, lookA_cons, if_neg (fun hc => hk hc.symm), if_neg hk]
  | cons q qs ih =>
    rw [ALSorted, List.pairwise_cons] at h
    by_cases h1 : keyLt p.1 q.1
    · rw [insW_cons, if_pos h1, lookA_cons]
      by_cases hk : k = p.1
      · have hnone : lookA (q :: qs) k = none := by
          rw [lookA_none_iff]
          intro r hr hc
          have hlt : keyLt p.1 r.1 := by
            rcases List.mem_cons.mp hr with hr | hr
            · rw [hr]; exact h1
            · exact keyLt_trans h1 (h.1 r hr)
          rw [hc, hk] at hlt
          exact keyLt_irrefl p.1 hlt
        rw [if_pos hk.symm, if_pos hk, hnone]
      · rw [if_neg (fun hc => hk hc.symm), if_neg hk]
    · by_cases h2 : keyLt q.1 p.1
      · rw [insW_cons, if_neg h1, if_pos h2, lookA_cons]
        by_cases hqk : q.1 = k
        · have hkp : ¬ (k = p.1) := by
            intro hc
            rw [hqk, hc] at h2
            exact keyLt_irrefl p.1 h2
          rw [if_pos hqk, if_neg hkp, lookA_cons, if_pos hqk]
        · rw [if_neg hqk, ih h.2, lookA_cons, if_neg hqk]
      · have he := keyLt_total_eq h1 h2
        rw [insW_cons, if_neg h1, if_neg h2, lookA_cons]
        by_cases hk : k = p.1
        · rw [if_pos hk.symm, if_pos hk, lookA_cons, if_pos (he.symm.trans hk.symm)]
        · rw [if_neg (fun hc => hk hc.symm), if_neg hk, lookA_cons,
            if_neg (fun hc : q.1 = k => hk (hc.symm.trans he.symm))]

/-- Every key bound in a strictly sorted tail is above the head key. -/
theorem head_lt_of_sorted_lookA {α : Type} {p : String × α} {ps : AL α}
    (h : ALSorted (p :: ps)) {k : String} {v : α} (hv : lookA ps k = some v) :
    keyLt p.1 k := by
  rw [ALSorted, List.pairwise_cons] at h
  rcases List.mem_map.mp (mem_keys_of_lookA_some hv) with ⟨r, hr, he⟩
  exact he ▸ h.1 r hr

/-- Two strictly key-sorted association lists with the same lookup function
are equal: the canonical-representation property behind content interning. -/
theorem sorted_lookA_ext {α : Type} (l1 l2 : AL α) (h1 : ALSorted l1)
    (h2 : ALSorted l2) (h : ∀ k, lookA l1 k = lookA l2 k) : l1 = l2 := by
  induction l1 generalizing l2 with
  | nil =>
    cases l2 with
    | nil => rfl
    | cons q qs =>
      have := h q.1
      rw [lookA_nil, lookA_cons, if_pos rfl] at this
      simp at this
  | cons p ps ih =>
    cases l2 with
    | nil =>
      have := h p.1
      rw [lookA_nil, lookA_cons, if_pos rfl] at this
      simp at this
    | cons q qs =>
      have hp : p.1 = q.1 := by
        by_contra hne
        have hv1 := h p.1
        rw [lookA_cons, if_pos rfl, lookA_cons,
          if_neg (fun hc : q.1 = p.1 => hne hc.symm)] at hv1
        have hv2 := h q.1
        rw [lookA_cons, if_neg hne, lookA_cons, if_pos rfl] at hv2
        exact keyLt_asymm (head_lt_of_sorted_lookA h1 hv2)
          (head_lt_of_sorted_lookA h2 hv1.symm)
      have hv : p.2 = q.2 := by
        have := h p.1
        rw [lookA_cons, if_pos rfl, lookA_cons, if_pos hp.symm] at this
        exact Option.some.inj this
      have h1t : ALSorted ps := by
        rw [ALSorted, List.pairwise_cons] at h1
        exact h1.2
      have h2t : ALSorted qs := by
        rw [ALSorted, List.pairwise_cons] at h2
        exact h2.2
      have htl : ps = qs := by
        apply ih qs h1t h2t
        intro k
        by_cases hk : k = p.1
        · have e1 : lookA ps k = none := by
            rw [lookA_none_iff]
            intro r hr hc
            rw [ALSorted, List.pairwise_cons] at h1
            have := h1.1 r hr
            rw [hc, hk] at this
            exact keyLt_irrefl p.1 this
          have e2 : lookA qs k = none := by
            rw [lookA_none_iff]
            intro r hr hc
            rw [ALSorted, List.pairwise_cons] at h2
            have := h2.1 r hr
            rw [hc, hk, ← hp] at this
            exact keyLt_irrefl p.1 this
          rw [e1, e2]
        · have := h k
          rw [lookA_cons, if_neg (fun hc : p.1 = k => hk hc.symm), lookA_cons,
            if_neg (show ¬ (q.1 = k) by rw [← hp]; exact fun hc => hk hc.symm)] at this
          exact this
      have hpq : p = q := by
        cases p
        cases q
        simp only at hp hv
        rw [hp, hv]
      rw [hpq, htl]

theorem lookA_append {α : Type} (a b : AL α) (k : String) :
    lookA (a ++ b) k =
      match lookA a k with
      | some v => some v
      | none => lookA b k := by
  induction a with
  | nil => simp [lookA_nil]
  | cons p ps ih =>
    rw [List.cons_append, lookA_cons, lookA_cons]
    by_cases hp : p.1 = k
    · rw [if_pos hp, if_pos hp]
    · rw [if_neg hp, if_neg hp, ih]

/-- Dict construction from a (nodup-keyed) sequence of bindings, later
bindings overriding earlier ones, yielding the key-sorted representation
that `MultiDomain.__init__` stores (`tuple(sorted(dict.keys()))`). -/
def mkAL {α : Type} (l : AL α) : AL α :=
  l.foldl (fun acc p => insW (fun a _ => a) p acc) []

theorem foldl_insW_sorted {α β : Type} (f : α → α → α) (g : β → String × α)
    (l : List β) (acc : AL α) (h : ALSorted acc) :
    ALSorted (l.foldl (fun acc p => insW f (g p) acc) acc) := by
  induction l generalizing acc with
  | nil => exact h
  | cons p t ih => exact ih _ (insW_sorted f (g p) acc h)

theorem mkAL_sorted {α : Type} (l : AL α) : ALSorted (mkAL l) :=
  foldl_insW_sorted (fun a _ => a) (fun p => p) l [] (by simp [ALSorted])

theorem foldl_insW_lookA {α : Type} (l : AL α) (acc : AL α) (h : ALSorted acc)
    (hnd : (l.map Prod.fst).Nodup) (k : String) :
    lookA (l.foldl (fun acc p => insW (fun a _ => a) p acc) acc) k =
      match lookA l k with
      | some v => some v
      | none => lookA acc k := by
  induction l generalizing acc with
  | nil => simp [lookA_nil]
  | cons p t ih =>
    rw [List.map_cons, List.nodup_cons] at hnd
    rw [List.foldl_cons, ih (insW _ p acc) (insW_sorted _ p acc h) hnd.2, lookA_cons]
    have hins := insW_lookA (fun a _ => a) p acc h k
    by_cases hk : p.1 = k
    · have htn : lookA t k = none := by
        rw [lookA_none_iff]
        intro r hr hc
        exact hnd.1 (hk ▸ hc ▸ List.mem_map_of_mem Prod.fst hr)
      rw [htn, if_pos hk]
      rw [if_pos hk.symm] at hins
      rw [hins]
      cases lookA acc k <;> rfl
    · rw [if_neg hk]
      rw [if_neg (fun hc => hk hc.symm)] at hins
      cases lookA t k <;> rw [hins]

theorem mkAL_lookA {α : Type} (l : AL α) (hnd : (l.map Prod.fst).Nodup) (k : String) :
    lookA (mkAL l) k = lookA l k := by
  rw [mkAL, foldl_insW_lookA l [] (by simp [ALSorted]) hnd k]
  cases lookA l k <;> rfl

/-- Source: `nifty5/multi_domain.py`, class `MultiDomain`.  A MultiDomain is
an immutable mapping from string keys to DomainTuples whose keys are stored
sorted (`self._keys = tuple(sorted(dict.keys()))`); instances are interned in
`_domainCache` keyed by content, so in this embedding a MultiDomain is the
canonical key-sorted association list itself and Lean equality plays the role
of object identity. -/
def MultiDomain : Type := {l : AL DomainTuple // ALSorted l}

instance : DecidableEq MultiDomain :=
  fun a b => decidable_of_iff (a.val = b.val) Subtype.ext_iff.symm

/-- Source: `MultiDomain.make`: builds the canonical interned MultiDomain
from a dict (modelled as a binding list; python dicts cannot repeat keys, and
later bindings override earlier ones). -/
def MultiDomain.make (l : AL DomainTuple) : MultiDomain :=
  ⟨mkAL l, mkAL_sorted l⟩

/-- Source: `MultiDomain.keys`. -/
def MultiDomain.keys (m : MultiDomain) : List String := m.val.map Prod.fst

/-- Source: `MultiDomain.__getitem__` (total variant returning an Option). -/
def MultiDomain.lookup (m : MultiDomain) (k : String) : Option DomainTuple :=
  lookA m.val k

theorem multiDomain_ext (a b : MultiDomain)
    (h : ∀ k, a.lookup k = b.lookup k) : a = b :=
  Subtype.ext (sorted_lookA_ext a.val b.val a.property b.property h)

/-- Source: the body of the `for key, subdom in zip(dom._keys, dom._domains)`
loop inside `MultiDomain.union`: merge one MultiDomain into the accumulated
`res` dict, raising `ValueError("domain mismatch")` on a conflicting key. -/
def unionStep (acc : AL DomainTuple) (p : String × DomainTuple) :
    Except String (AL DomainTuple) :=
  match lookA acc p.1 with
  | some v => if v = p.2 then Except.ok acc else Except.error ("domain mismatch")
  | none => Except.ok (acc ++ [p])

def unionAcc (acc : AL DomainTuple) (d : MultiDomain) :
    Except String (AL DomainTuple) :=
  d.val.foldlM unionStep acc

/-- Source: `MultiDomain.union`.  `inp = set(inp)` is modelled by `dedup`;
when exactly one distinct MultiDomain remains it is returned as-is, else the
entries of all inputs are merged with a conflict check and the result is
interned through `make`. -/
def MultiDomain.union (inp : List MultiDomain) : Except String MultiDomain :=
  match inp.dedup with
  | [d] => Except.ok d
  | s => do
    let res ← s.foldlM unionAcc []
    Except.ok (MultiDomain.make res)

/-- Pairwise agreement of a family of MultiDomains on shared keys. -/
def compatible (inp : List MultiDomain) : Prop :=
  ∀ d1 ∈ inp, ∀ d2 ∈ inp, ∀ k v1 v2,
    d1.lookup k = some v1 → d2.lookup k = some v2 → v1 = v2

theorem unionFold_ok (e : AL DomainTuple) (acc : AL DomainTuple)
    (hnd : (e.map Prod.fst).Nodup)
    (hcomp : ∀ k v1 v2, lookA acc k = some v1 → lookA e k = some v2 → v1 = v2) :
    ∃ acc', e.foldlM unionStep acc = Except.ok acc' ∧
      ∀ k, lookA acc' k =
        match lookA acc k with
        | some v => some v
        | none => lookA e k := by
  induction e generalizing acc with
  | nil =>
    refine ⟨acc, rfl, fun k => ?_⟩
    cases lookA acc k <;> rfl
  | cons p t ih =>
    rw [List.map_cons, List.nodup_cons] at hnd
    have htp : lookA t p.1 = none := by
      rw [lookA_none_iff]
      intro r hr hc
      exact hnd.1 (hc ▸ List.mem_map_of_mem Prod.fst hr)
    have hstep : ∀ k v2, lookA t k = some v2 → lookA (p :: t) k = some v2 := by
      intro k v2 h2
      rw [lookA_cons]
      by_cases hk : p.1 = k
      · rw [← hk, htp] at h2; cases h2
      · rw [if_neg hk]; exact h2
    rw [List.foldlM_cons]
    cases hl : lookA acc p.1 with
    | some v =>
      have hv : v = p.2 := hcomp p.1 v p.2 hl (by rw [lookA_cons, if_pos rfl])
      rw [unionStep, hl]
      simp only [hv, if_pos]
      have hcomp' : ∀ k v1 v2, lookA acc k = some v1 → lookA t k = some v2 → v1 = v2 :=
        fun k v1 v2 h1 h2 => hcomp k v1 v2 h1 (hstep k v2 h2)
      rcases ih acc hnd.2 hcomp' with ⟨acc', he, hchar⟩
      refine ⟨acc', he, fun k => ?_⟩
      rw [hchar k, lookA_cons]
      by_cases hk : p.1 = k
      · rw [if_pos hk, ← hk, hl]
      · rw [if_neg hk]
    | none =>
      rw [unionStep, hl]
      have hcomp' : ∀ k v1 v2, lookA (acc ++ [p]) k = some v1 → lookA t k = some v2 →
          v1 = v2 := by
        intro k v1 v2 h1 h2
        rw [lookA_append] at h1
        cases ha : lookA acc k with
        | some w =>
          rw [ha] at h1
          cases h1
          exact hcomp k v1 v2 ha (hstep k v2 h2)
        | none =>
          rw [ha, lookA_cons] at h1
          by_cases hk : p.1 = k
          · rw [← hk, htp] at h2; cases h2
          · rw [if_neg hk, lookA_nil] at h1; cases h1
      rcases ih (acc ++ [p]) hnd.2 hcomp' with ⟨acc', he, hchar⟩
      refine ⟨acc', he, fun k => ?_⟩
      rw [hchar k, lookA_append, lookA_cons, lookA_cons, lookA_nil]
      by_cases hk : p.1 = k
      · rw [if_pos hk, ← hk, hl, if_pos rfl]
      · rw [if_neg hk, if_neg hk]
        cases lookA acc k <;> rfl

theorem sorted_keys_nodup {α : Type} {l : AL α} (h : ALSorted l) :
    (l.map Prod.fst).Nodup := by
  rw [ALSorted] at h
  exact List.Pairwise.map Prod.fst (fun a b hab => keyLt_ne hab) h

theorem unionFold_err (e : AL DomainTuple) (acc : AL DomainTuple)
    (h : ∃ k v1 v2, lookA acc k = some v1 ∧ lookA e k = some v2 ∧ v1 ≠ v2) :
    e.foldlM unionStep acc = Except.error ("domain mismatch") := by
  induction e generalizing acc with
  | nil =>
    rcases h with ⟨k, v1, v2, _, h2, _⟩
    rw [lookA_nil] at h2
    cases h2
  | cons p t ih =>
    rw [List.foldlM_cons]
    cases hl : lookA acc p.1 with
    | some v =>
      by_cases hv : v = p.2
      · simp only [unionStep, hl, if_pos hv]
        apply ih
        rcases h with ⟨k, v1, v2, h1, h2, hne⟩
        rw [lookA_cons] at h2
        by_cases hk : p.1 = k
        · rw [if_pos hk] at h2
          cases h2
          rw [← hk, hl] at h1
          cases h1
          exact absurd hv hne
        · rw [if_neg hk] at h2
          exact ⟨k, v1, v2, h1, h2, hne⟩
      · simp only [unionStep, hl, if_neg hv]
        rfl
    | none =>
      simp only [unionStep, hl]
      apply ih
      rcases h with ⟨k, v1, v2, h1, h2, hne⟩
      have hk : p.1 ≠ k := by
        intro hc
        rw [← hc, hl] at h1
        cases h1
      rw [lookA_cons, if_neg hk] at h2
      refine ⟨k, v1, v2, ?_, h2, hne⟩
      rw [lookA_append, h1]

theorem unionFold_nodup (e : AL DomainTuple) (acc : AL DomainTuple) (acc' : AL DomainTuple)
    (he : e.foldlM unionStep acc = Except.ok acc')
    (h : (acc.map Prod.fst).Nodup) : (acc'.map Prod.fst).Nodup := by
  induction e generalizing acc with
  | nil =>
    cases he
    exact h
  | cons p t ih =>
    rw [List.foldlM_cons] at he
    cases hl : lookA acc p.1 with
    | some v =>
      simp only [unionStep, hl] at he
      by_cases hv : v = p.2
      · rw [if_pos hv] at he
        exact ih acc he h
      · rw [if_neg hv] at he
        cases he
    | none =>
      simp only [unionStep, hl] at he
      apply ih (acc ++ [p]) he
      rw [List.map_append, List.map_cons, List.map_nil]
      rw [List.nodup_append]
      refine ⟨h, List.nodup_singleton p.1, ?_⟩
      intro a ha hb
      rw [List.mem_singleton] at hb
      rcases lookA_some_of_mem_keys (hb ▸ ha) with ⟨w, hw⟩
      rw [hw] at hl
      cases hl

/-- First binding of a key among a family of MultiDomains, in family order. -/
def firstLook : List MultiDomain → String → Option DomainTuple
  | [], _ => none
  | d :: t, k =>
    match d.lookup k with
    | some v => some v
    | none => firstLook t k

theorem outerFold_ok (ds : List MultiDomain) (acc : AL DomainTuple)
    (hds : ∀ d1 ∈ ds, ∀ d2 ∈ ds, ∀ k v1 v2,
      d1.lookup k = some v1 → d2.lookup k = some v2 → v1 = v2)
    (hacc : ∀ d ∈ ds, ∀ k v1 v2,
      lookA acc k = some v1 → d.lookup k = some v2 → v1 = v2) :
    ∃ res, ds.foldlM unionAcc acc = Except.ok res ∧
      (∀ k, lookA res k =
        match lookA acc k with
        | some v => some v
        | none => firstLook ds k) ∧
      ((acc.map Prod.fst).Nodup → (res.map Prod.fst).Nodup) := by
  induction ds generalizing acc with
  | nil =>
    refine ⟨acc, rfl, fun k => ?_, fun h => h⟩
    cases lookA acc k <;> rfl
  | cons d t ih =>
    rcases unionFold_ok d.val acc (sorted_keys_nodup d.property)
        (fun k v1 v2 h1 h2 => hacc d (by simp) k v1 v2 h1 h2) with ⟨acc1, he1, hchar1⟩
    have hds' : ∀ d1 ∈ t, ∀ d2 ∈ t, ∀ k v1 v2,
        d1.lookup k = some v1 → d2.lookup k = some v2 → v1 = v2 :=
      fun d1 h1 d2 h2 => hds d1 (by simp [h1]) d2 (by simp [h2])
    have hacc1 : ∀ d' ∈ t, ∀ k v1 v2,
        lookA acc1 k = some v1 → d'.lookup k = some v2 → v1 = v2 := by
      intro d' hd' k v1 v2 h1 h2
      rw [hchar1 k] at h1
      cases ha : lookA acc k with
      | some w =>
        rw [ha] at h1
        cases h1
        exact hacc d' (by simp [hd']) k v1 v2 ha h2
      | none =>
        rw [ha] at h1
        exact hds d (by simp) d' (by simp [hd']) k v1 v2 h1 h2
    rcases ih acc1 hds' hacc1 with ⟨res, he, hchar, hnd⟩
    rw [List.foldlM_cons]
    simp only [unionAcc]
    rw [he1]
    refine ⟨res, he, fun k => ?_, fun h => hnd (unionFold_nodup d.val acc acc1 he1 h)⟩
    rw [hchar k, hchar1 k, firstLook]
    simp only [MultiDomain.lookup]
    cases lookA acc k with
    | some w => rfl
    | none => cases lookA d.val k <;> rfl

theorem outerFold_err (ds : List MultiDomain) (acc : AL DomainTuple)
    (h : (∃ d ∈ ds, ∃ k v1 v2,
            lookA acc k = some v1 ∧ d.lookup k = some v2 ∧ v1 ≠ v2) ∨
         (∃ d1 ∈ ds, ∃ d2 ∈ ds, ∃ k v1 v2,
            d1.lookup k = some v1 ∧ d2.lookup k = some v2 ∧ v1 ≠ v2)) :
    ds.foldlM unionAcc acc = Except.error ("domain mismatch") := by
  induction ds generalizing acc with
  | nil =>
    rcases h with ⟨d, hd, _⟩ | ⟨d, hd, _⟩ <;> simp at hd
  | cons d t ih =>
    rw [List.foldlM_cons]
    by_cases hconf : ∃ k v1 v2, lookA acc k = some v1 ∧ d.lookup k = some v2 ∧ v1 ≠ v2
    · simp only [unionAcc, unionFold_err d.val acc hconf]
      rfl
    · have hcomp : ∀ k v1 v2, lookA acc k = some v1 → lookA d.val k = some v2 → v1 = v2 := by
        intro k v1 v2 h1 h2
        by_contra hne
        exact hconf ⟨k, v1, v2, h1, h2, hne⟩
      rcases unionFold_ok d.val acc (sorted_keys_nodup d.property) hcomp with
        ⟨acc1, he1, hchar1⟩
      rw [unionAcc, he1]
      apply ih acc1
      have hup : ∀ k v, d.lookup k = some v → lookA acc1 k = some v := by
        intro k v hv
        rw [hchar1 k]
        cases ha : lookA acc k with
        | some w =>
          rw [hcomp k w v ha hv]
        | none => exact hv
      have hkeep : ∀ k v, lookA acc k = some v → lookA acc1 k = some v := by
        intro k v hv
        rw [hchar1 k, hv]
      rcases h with ⟨d', hd', k, v1, v2, h1, h2, hne⟩ | ⟨d1, hd1, d2, hd2, k, v1, v2, h1, h2, hne⟩
      · rcases List.mem_cons.mp hd' with hd' | hd'
        · exact absurd ⟨k, v1, v2, h1, hd' ▸ h2, hne⟩ hconf
        · exact Or.inl ⟨d', hd', k, v1, v2, hkeep k v1 h1, h2, hne⟩
      · rcases List.mem_cons.mp hd1 with he1' | he1'
        · rcases List.mem_cons.mp hd2 with he2' | he2'
          · rw [he1'] at h1
            rw [he2'] at h2
            rw [h1] at h2
            exact absurd (Option.some.inj h2) hne
          · exact Or.inl ⟨d2, he2', k, v1, v2, hup k v1 (he1' ▸ h1), h2, hne⟩
        · rcases List.mem_cons.mp hd2 with he2' | he2'
          · exact Or.inl ⟨d1, he1', k, v2, v1, hup k v2 (he2' ▸ h2), h1,
              fun hc => hne hc.symm⟩
          · exact Or.inr ⟨d1, he1', d2, he2', k, v1, v2, h1, h2, hne⟩

theorem dedup_all_eq {α : Type} [DecidableEq α] (l : List α) (d : α) (hne : l ≠ [])
    (h : ∀ x ∈ l, x = d) : l.dedup = [d] := by
  induction l with
  | nil => exact absurd rfl hne
  | cons a t ih =>
    have ha : a = d := h a (by simp)
    cases t with
    | nil => simp [ha]
    | cons b t' =>
      have hb : b = d := h b (by simp)
      have hmem : a ∈ b :: t' := by
        rw [ha, hb]
        simp
      rw [List.dedup_cons_of_mem hmem]
      exact ih (by simp) (fun x hx => h x (by simp [hx]))

theorem firstLook_some_iff (ds : List MultiDomain) (k : String) (v : DomainTuple)
    (hds : ∀ d1 ∈ ds, ∀ d2 ∈ ds, ∀ k v1 v2,
      d1.lookup k = some v1 → d2.lookup k = some v2 → v1 = v2) :
    firstLook ds k = some v ↔ ∃ d ∈ ds, d.lookup k = some v := by
  induction ds with
  | nil => simp [firstLook]
  | cons d t ih =>
    rw [firstLook]
    cases hl : d.lookup k with
    | some w =>
      constructor
      · intro hv
        cases hv
        exact ⟨d, by simp, hl⟩
      · rintro ⟨d', hd', hv⟩
        rcases List.mem_cons.mp hd' with hd' | hd'
        · rw [hd'] at hv
          rw [hv] at hl
          cases hl
          rfl
        · rw [hds d' (by simp [hd']) d (by simp) k v w hv hl]
    | none =>
      rw [ih (fun d1 h1 d2 h2 => hds d1 (by simp [h1]) d2 (by simp [h2]))]
      constructor
      · rintro ⟨d', hd', hv⟩
        exact ⟨d', by simp [hd'], hv⟩
      · rintro ⟨d', hd', hv⟩
        rcases List.mem_cons.mp hd' with hd' | hd'
        · rw [hd'] at hv
          rw [hv] at hl
          cases hl
        · exact ⟨d', hd', hv⟩

theorem make_lookup (l : AL DomainTuple) (hnd : (l.map Prod.fst).Nodup) (k : String) :
    (MultiDomain.make l).lookup k = lookA l k := by
  rw [MultiDomain.lookup, MultiDomain.make]
  exact mkAL_lookA l hnd k

theorem union_ok_of_compatible (inp : List MultiDomain) (h : compatible inp) :
    ∃ md, MultiDomain.union inp = Except.ok md ∧
      ∀ k v, md.lookup k = some v ↔ ∃ d ∈ inp, d.lookup k = some v := by
  cases hd : inp.dedup with
  | nil =>
    have hinp : inp = [] := (List.dedup_eq_nil inp).mp hd
    subst hinp
    refine ⟨MultiDomain.make [], by rw [MultiDomain.union]; rfl, fun k v => ?_⟩
    rw [make_lookup [] (by simp) k, lookA_nil]
    simp
  | cons d1 t =>
    cases t with
    | nil =>
      refine ⟨d1, ?_, fun k v => ?_⟩
      · rw [MultiDomain.union, hd]
      · constructor
        · intro hv
          exact ⟨d1, List.mem_dedup.mp (hd ▸ List.mem_singleton_self d1), hv⟩
        · rintro ⟨d', hd', hv⟩
          have : d' ∈ inp.dedup := List.mem_dedup.mpr hd'
          rw [hd, List.mem_singleton] at this
          rw [← this]
          exact hv
    | cons d2 t2 =>
      have hds : ∀ a ∈ inp.dedup, ∀ b ∈ inp.dedup, ∀ k v1 v2,
          a.lookup k = some v1 → b.lookup k = some v2 → v1 = v2 :=
        fun a ha b hb => h a (List.mem_dedup.mp ha) b (List.mem_dedup.mp hb)
      rw [hd] at hds
      rcases outerFold_ok (d1 :: d2 :: t2) [] hds
          (fun d _ k v1 v2 h1 _ => by rw [lookA_nil] at h1; cases h1) with
        ⟨res, he, hchar, hnd⟩
      refine ⟨MultiDomain.make res, ?_, fun k v => ?_⟩
      · rw [MultiDomain.union, hd]
        simp only [he, Except.bind]
        rfl
      · rw [make_lookup res (hnd (by simp)) k, hchar k, lookA_nil]
        have hfl := firstLook_some_iff (d1 :: d2 :: t2) k v hds
        rw [hfl]
        constructor
        · rintro ⟨d', hd', hv⟩
          exact ⟨d', List.mem_dedup.mp (hd ▸ hd'), hv⟩
        · rintro ⟨d', hd', hv⟩
          exact ⟨d', hd ▸ List.mem_dedup.mpr hd', hv⟩

theorem union_err_of_not_compatible (inp : List MultiDomain) (h : ¬ compatible inp) :
    MultiDomain.union inp = Except.error ("domain mismatch") := by
  have hconf : ∃ d1 ∈ inp, ∃ d2 ∈ inp, ∃ k v1 v2,
      d1.lookup k = some v1 ∧ d2.lookup k = some v2 ∧ v1 ≠ v2 := by
    rw [compatible] at h
    push_neg at h
    rcases h with ⟨d1, hd1, d2, hd2, k, v1, v2, h1, h2, hne⟩
    exact ⟨d1, hd1, d2, hd2, k, v1, v2, h1, h2, hne⟩
  rcases hconf with ⟨d1, hd1, d2, hd2, k, v1, v2, h1, h2, hne⟩
  cases hd : inp.dedup with
  | nil =>
    have : inp = [] := (List.dedup_eq_nil inp).mp hd
    rw [this] at hd1
    simp at hd1
  | cons e1 t =>
    cases t with
    | nil =>
      exfalso
      have hm1 : d1 ∈ inp.dedup := List.mem_dedup.mpr hd1
      have hm2 : d2 ∈ inp.dedup := List.mem_dedup.mpr hd2
      rw [hd, List.mem_singleton] at hm1 hm2
      rw [hm1] at h1
      rw [hm2] at h2
      rw [h1] at h2
      exact hne (Option.some.inj h2)
    | cons e2 t2 =>
      have herr := outerFold_err (e1 :: e2 :: t2) []
        (Or.inr ⟨d1, hd ▸ List.mem_dedup.mpr hd1, d2, hd ▸ List.mem_dedup.mpr hd2,
          k, v1, v2, h1, h2, hne⟩)
      rw [MultiDomain.union, hd]
      simp only [herr, Except.bind]
      rfl

theorem ALSorted_iff_keys {α : Type} (l : AL α) :
    ALSorted l ↔ (l.map Prod.fst).Pairwise keyLt := by
  rw [ALSorted, List.pairwise_map]

theorem ALSorted_map {α β : Type} (l : AL α) (g : String × α → β) (h : ALSorted l) :
    ALSorted (l.map (fun p => (p.1, g p))) := by
  rw [ALSorted, List.pairwise_map]
  exact h.imp (fun hab => hab)

theorem ALSorted_filter {α : Type} (l : AL α) (q : String × α → Bool) (h : ALSorted l) :
    ALSorted (l.filter q) :=
  List.Pairwise.sublist (List.filter_sublist l) h

/-- Modelled from the spec: "Field: an array value tagged with a DomainTuple".
Every array operation in the embedded code is elementwise, so the array
content is represented by a single component in the scalar ring `R`. -/
structure Field (R : Type) where
  dom : DomainTuple
  v : R

/-- Modelled from the spec: "MultiField: a mapping from keys to Fields, tagged
with a MultiDomain whose keys/domains must exactly match the Fields' keys and
domains"; stored key-sorted like its MultiDomain. -/
def MultiField (R : Type) : Type := {l : AL (Field R) // ALSorted l}

def MultiField.domain {R : Type} (m : MultiField R) : MultiDomain :=
  ⟨m.val.map (fun p => (p.1, p.2.dom)), ALSorted_map m.val (fun p => p.2.dom) m.property⟩

def MultiField.lookup {R : Type} (m : MultiField R) (k : String) : Option (Field R) :=
  lookA m.val k

/-- Operator domains and targets are each either a DomainTuple or a
MultiDomain (`Operator.domain` docstring in nifty6/operators/operator.py). -/
inductive Dm
  | dt (d : DomainTuple)
  | md (m : MultiDomain)
deriving DecidableEq

def Dm.isMulti : Dm → Bool
  | .dt _ => false
  | .md _ => true

/-- A runtime value: a Field or a MultiField. -/
inductive Val (R : Type)
  | fld (f : Field R)
  | mf (m : MultiField R)

def Val.domain {R : Type} : Val R → Dm
  | .fld f => .dt f.dom
  | .mf m => .md m.domain

/-- Helper for `MultiField.extract`: walk the subdomain entries, taking the
field bound in `l` for each key; a missing key or a mismatched DomainTuple is
an error (the python `MultiField` constructor checks key domains). -/
def extractRawMF {R : Type} (l : AL (Field R)) : AL DomainTuple → Except String (AL (Field R))
  | [] => Except.ok []
  | (k, d) :: rest =>
    match lookA l k with
    | some f =>
      if f.dom = d then do
        let r ← extractRawMF l rest
        Except.ok ((k, f) :: r)
      else Except.error ("domain mismatch")
    | none => Except.error ("key missing")

theorem extractRawMF_keys {R : Type} (l : AL (Field R)) (s : AL DomainTuple)
    (r : AL (Field R)) (h : extractRawMF l s = Except.ok r) :
    r.map Prod.fst = s.map Prod.fst := by
  induction s generalizing r with
  | nil =>
    cases h
    rfl
  | cons p rest ih =>
    cases hl : lookA l p.1 with
    | some f =>
      by_cases hd : f.dom = p.2
      · simp only [extractRawMF, hl, if_pos hd] at h
        cases hr : extractRawMF l rest with
        | ok r' =>
          simp only [hr, Except.bind] at h
          cases h
          rw [List.map_cons, List.map_cons, ih r' hr]
        | error e =>
          simp only [hr, Except.bind] at h
          exact Except.noConfusion h
      · simp only [extractRawMF, hl, if_neg hd] at h
        exact Except.noConfusion h
    | none =>
      simp only [extractRawMF, hl] at h
      exact Except.noConfusion h

/-- Modelled from the spec: extraction against a sub-domain
(`MultiField.extract`); fails on a missing key or mismatched DomainTuple. -/
def MultiField.extract {R : Type} (m : MultiField R) (s : MultiDomain) :
    Except String (MultiField R) :=
  match h : extractRawMF m.val s.val with
  | Except.ok r =>
    Except.ok ⟨r, by
      rw [ALSorted_iff_keys, extractRawMF_keys m.val s.val r h]
      exact (ALSorted_iff_keys s.val).mp s.property⟩
  | Except.error e => Except.error e

/-- Dispatch of `x.extract(dom)`: a Field checks its DomainTuple, a
MultiField restricts to the (sub-)MultiDomain. -/
def Val.extract {R : Type} (x : Val R) (d : Dm) : Except String (Val R) :=
  match x, d with
  | .fld f, .dt t => if f.dom = t then Except.ok (.fld f) else Except.error ("domain mismatch")
  | .mf m, .md s => (m.extract s).map .mf
  | _, _ => Except.error ("type mismatch")

/-- Modelled from the spec (recursion of §4.4): `MultiField.extract_part`
keeps the fields whose keys appear in the subdomain and returns `None` when
no key overlaps. -/
def MultiField.extractPart {R : Type} (m : MultiField R) (s : MultiDomain) :
    Option (MultiField R) :=
  let r := m.val.filter (fun p => (lookA s.val p.1).isSome)
  if r.isEmpty then none
  else some ⟨r, ALSorted_filter m.val _ m.property⟩

/-- `c_inp.extract_part(dom)` as used by `_OpProd`/`_OpSum` simplification;
only a MultiField against a MultiDomain supports it. -/
def Val.extractPart {R : Type} (x : Val R) (d : Dm) : Except String (Option (Val R)) :=
  match x, d with
  | .mf m, .md s => Except.ok ((m.extractPart s).map .mf)
  | _, _ => Except.error ("attribute error")

/-- Modelled from the spec: `MultiField.flexible_addsub` / `unite` — a dict
union that adds (or subtracts) values on overlapping keys and inserts the
(possibly negated) field on fresh keys. -/
def MultiField.flexAddSub {R : Type} [CommRing R] (a b : MultiField R) (neg : Bool) :
    MultiField R :=
  ⟨b.val.foldl (fun acc p =>
      insW (fun newf oldf => ⟨oldf.dom, oldf.v + newf.v⟩)
        (p.1, ⟨p.2.dom, if neg then -p.2.v else p.2.v⟩) acc) a.val,
    foldl_insW_sorted (fun newf oldf => ⟨oldf.dom, oldf.v + newf.v⟩)
      (fun p => (p.1, ⟨p.2.dom, if neg then -p.2.v else p.2.v⟩)) b.val a.val a.property⟩

def Val.flexAddSub {R : Type} [CommRing R] (a b : Val R) (neg : Bool) : Val R :=
  match a, b with
  | .fld f, .fld g => .fld ⟨f.dom, if neg then f.v - g.v else f.v + g.v⟩
  | .mf m, .mf n => .mf (m.flexAddSub n neg)
  | x, _ => x

/-- Source: `MultiField.unite(other) = flexible_addsub(other, False)`
(modelled from the spec: "unites the two output MultiFields (disjoint keys)
or adds them (identical target)"). -/
def Val.unite {R : Type} [CommRing R] (a b : Val R) : Val R := a.flexAddSub b false

/-- Modelled from the spec: elementwise product; the embedded call sites only
multiply values over identical target domains (enforced at combinator
construction), so a key missing on the right (unreachable there) keeps the
left field. -/
def MultiField.mulMF {R : Type} [CommRing R] (a b : MultiField R) : MultiField R :=
  ⟨a.val.map (fun p => (p.1,
      match lookA b.val p.1 with
      | some g => ⟨p.2.dom, p.2.v * g.v⟩
      | none => p.2)),
    ALSorted_map a.val _ a.property⟩

def Val.mul {R : Type} [CommRing R] (a b : Val R) : Val R :=
  match a, b with
  | .fld f, .fld g => .fld ⟨f.dom, f.v * g.v⟩
  | .mf m, .mf n => .mf (m.mulMF n)
  | x, _ => x

/-- Scalar broadcast addition (`field + scalar`). -/
def Val.addConst {R : Type} [CommRing R] (x : Val R) (c : R) : Val R :=
  match x with
  | .fld f => .fld ⟨f.dom, f.v + c⟩
  | .mf m => .mf ⟨m.val.map (fun p => (p.1, ⟨p.2.dom, p.2.v + c⟩)),
      ALSorted_map m.val _ m.property⟩

/-- Scalar broadcast subtraction (`field - scalar`). -/
def Val.subConst {R : Type} [CommRing R] (x : Val R) (c : R) : Val R :=
  match x with
  | .fld f => .fld ⟨f.dom, f.v - c⟩
  | .mf m => .mf ⟨m.val.map (fun p => (p.1, ⟨p.2.dom, p.2.v - c⟩)),
      ALSorted_map m.val _ m.property⟩

/-- Scalar broadcast multiplication (`field * scalar`). -/
def Val.scale {R : Type} [CommRing R] (c : R) (x : Val R) : Val R :=
  match x with
  | .fld f => .fld ⟨f.dom, c * f.v⟩
  | .mf m => .mf ⟨m.val.map (fun p => (p.1, ⟨p.2.dom, c * p.2.v⟩)),
      ALSorted_map m.val _ m.property⟩

/-- The zero value over a domain (`Field.full(dom, 0.)` /
`MultiField.full(dom, 0.)`). -/
def Val.zeroOf {R : Type} [CommRing R] : Dm → Val R
  | .dt d => .fld ⟨d, 0⟩
  | .md s => .mf ⟨s.val.map (fun p => (p.1, ⟨p.2, 0⟩)),
      ALSorted_map s.val _ s.property⟩

/-- Total restriction of a value to the keys of a domain; used for the
semantics of summing linear operators over unioned MultiDomains. -/
def Val.restrict {R : Type} (x : Val R) (d : Dm) : Val R :=
  match x, d with
  | .mf m, .md s => .mf ⟨m.val.filter (fun p => (lookA s.val p.1).isSome),
      ALSorted_filter m.val _ m.property⟩
  | x, _ => x

/-- Modelled from the spec: `sugar.domain_union` — DomainTuples must be
identical, MultiDomains are united with the conflict check of
`MultiDomain.union`. -/
def domainUnion (a b : Dm) : Except String Dm :=
  match a, b with
  | .dt x, .dt y => if x = y then Except.ok (.dt x) else Except.error ("domain mismatch")
  | .md x, .md y => (MultiDomain.union [x, y]).map .md
  | _, _ => Except.error ("domain mismatch")

/-- Total variant of `domainUnion`, defaulting on the error branch; only
evaluated through well-formed operators, whose construction has already run
the checked `domainUnion`. -/
def domainUnionD (a b : Dm) : Dm :=
  match domainUnion a b with
  | Except.ok d => d
  | Except.error _ => .dt 0

/-- Modelled from the spec: a `LinearOperator` is represented semantically by
its domain, its target and its forward application map (`times`); Jacobians
in this core are only ever applied forward, composed, scaled and summed. -/
structure LinOp (R : Type) where
  dom : Dm
  tgt : Dm
  app : Val R → Val R

/-- Modelled from the spec: `ScalingOperator(1., dom)` — the identity used by
`Linearization.make_var`. -/
def LinOp.idOp {R : Type} (d : Dm) : LinOp R := ⟨d, d, fun x => x⟩

/-- Modelled from the spec: `ScalingOperator(factor, dom)`. -/
def LinOp.scalingOp {R : Type} [CommRing R] (c : R) (d : Dm) : LinOp R :=
  ⟨d, d, fun x => Val.scale c x⟩

/-- Source: `NullOperator` (simple_linear_operators.py): the zero map, used
as the Jacobian of `_ConstantOperator` and `make_const`. -/
def LinOp.nullOp {R : Type} [CommRing R] (d t : Dm) : LinOp R :=
  ⟨d, t, fun _ => Val.zeroOf t⟩

/-- Modelled from the spec: `sugar.makeOp(field)` — the diagonal operator
multiplying pointwise by a fixed field, used by the product rule. -/
def makeOp {R : Type} [CommRing R] (v : Val R) : LinOp R :=
  ⟨v.domain, v.domain, fun x => v.mul x⟩

/-- Lazy composition `A @ B` of linear operators (`_OpChain` on two linear
factors / `Linearization.prepend_jac`). -/
def LinOp.comp {R : Type} (a b : LinOp R) : LinOp R :=
  ⟨b.dom, a.tgt, fun x => a.app (b.app x)⟩

/-- Modelled from the spec: `LinearOperator._myadd` — the lazy sum of two
linear operators over the union of their domains; each summand acts on the
restriction of the input to its own domain and the outputs are united
(added on overlapping keys). -/
def LinOp.myadd {R : Type} [CommRing R] (a b : LinOp R) (neg : Bool) : LinOp R :=
  ⟨domainUnionD a.dom b.dom, domainUnionD a.tgt b.tgt,
    fun x => (a.app (x.restrict a.dom)).flexAddSub (b.app (x.restrict b.dom)) neg⟩

/-- Modelled from the spec: `LinearOperator.scale`. -/
def LinOp.scaleOp {R : Type} [CommRing R] (a : LinOp R) (c : R) : LinOp R :=
  ⟨a.dom, a.tgt, fun x => Val.scale c (a.app x)⟩

/-- Source: nifty6/operators/block_diagonal_operator.py,
`BlockDiagonalOperator.apply`, specialized to `ScalingOperator` blocks as
constructed by `Linearization.make_partial_var`: each component is scaled by
its block factor. -/
def blockDiagScaling {R : Type} [CommRing R] (d : MultiDomain) (fac : String → R) :
    LinOp R :=
  ⟨.md d, .md d, fun x =>
    match x with
    | .mf m => .mf ⟨m.val.map (fun p => (p.1, ⟨p.2.dom, fac p.1 * p.2.v⟩)),
        ALSorted_map m.val _ m.property⟩
    | v => v⟩

/-- Source: nifty5/linearization.py, `Linearization.__init__` fields:
value, Jacobian, optional metric, want_metric flag. -/
structure Linearization (R : Type) where
  val : Val R
  jac : LinOp R
  metric : Option (LinOp R)
  wantMetric : Bool

/-- Result of a python method call: a value, a silent `None` fall-through, or
a raised exception. -/
inductive PyRes (α : Type)
  | ok (a : α)
  | noneRes
  | raise (msg : String)
deriving DecidableEq

/-- Source: `Linearization.__init__` raises `ValueError("domain mismatch")`
unless `val.domain == jac.target`; `new` passes `want_metric` through. -/
def Linearization.make {R : Type} (v : Val R) (j : LinOp R) (met : Option (LinOp R))
    (wm : Bool) : PyRes (Linearization R) :=
  if v.domain = j.tgt then .ok ⟨v, j, met, wm⟩ else .raise ("domain mismatch")

/-- The possible python operand types of `Linearization.{_myadd,__mul__}`:
another Linearization, a scalar (`int`, `float`, `complex`), a `Field`, a
`MultiField`, or any other object (matched by no `isinstance` branch). -/
inductive LinOperand (R : Type)
  | lin (L : Linearization R)
  | scalar (c : R)
  | field (f : Field R)
  | multifield (m : MultiField R)
  | other

/-- Source: `Linearization._myadd(self, other, neg)` (lines 70-82): the
Linearization branch adds values, Jacobians and (when both present) metrics;
the scalar/Field/MultiField branch shifts only the value and hands the very
same Jacobian and metric to `new`; any other operand type falls through every
`isinstance` case and the method returns `None`. -/
def Linearization.myadd {R : Type} [CommRing R] (L : Linearization R)
    (o : LinOperand R) (neg : Bool) : PyRes (Linearization R) :=
  match o with
  | .lin M =>
    let met : Option (LinOp R) :=
      match L.metric, M.metric with
      | some a, some b => some (a.myadd b neg)
      | _, _ => none
    Linearization.make (L.val.flexAddSub M.val neg) (L.jac.myadd M.jac neg) met
      L.wantMetric
  | .scalar c =>
    if neg then Linearization.make (L.val.subConst c) L.jac L.metric L.wantMetric
    else Linearization.make (L.val.addConst c) L.jac L.metric L.wantMetric
  | .field f =>
    if neg then Linearization.make (L.val.flexAddSub (.fld f) true) L.jac L.metric L.wantMetric
    else Linearization.make (L.val.flexAddSub (.fld f) false) L.jac L.metric L.wantMetric
  | .multifield m =>
    if neg then Linearization.make (L.val.flexAddSub (.mf m) true) L.jac L.metric L.wantMetric
    else Linearization.make (L.val.flexAddSub (.mf m) false) L.jac L.metric L.wantMetric
  | .other => .noneRes

/-- Source: `Linearization.__add__`. -/
def Linearization.addOp {R : Type} [CommRing R] (L : Linearization R) (o : LinOperand R) :
    PyRes (Linearization R) := L.myadd o false

/-- Source: `Linearization.__sub__`. -/
def Linearization.subOp {R : Type} [CommRing R] (L : Linearization R) (o : LinOperand R) :
    PyRes (Linearization R) := L.myadd o true

/-- Source: `Linearization.__mul__` (lines 107-124): Linearization times
Linearization applies the product rule after a target check; a scalar `1` is
the identity; a general scalar scales value, Jacobian and metric; a Field or
MultiField multiplies the value and composes a diagonal onto the Jacobian
after a target/domain check; any other operand type falls through and the
method returns `None`. -/
def Linearization.mulOp {R : Type} [CommRing R] [DecidableEq R] (L : Linearization R)
    (o : LinOperand R) : PyRes (Linearization R) :=
  match o with
  | .lin M =>
    if L.jac.tgt = M.jac.tgt then
      Linearization.make (L.val.mul M.val)
        (((makeOp M.val).comp L.jac).myadd ((makeOp L.val).comp M.jac) false)
        none L.wantMetric
    else .raise ("domain mismatch")
  | .scalar c =>
    if c = 1 then .ok L
    else
      Linearization.make (Val.scale c L.val) (L.jac.scaleOp c)
        (L.metric.map (fun m => m.scaleOp c)) L.wantMetric
  | .field f =>
    if L.jac.tgt = (Val.fld (R := R) f).domain then
      Linearization.make (L.val.mul (.fld f)) ((makeOp (Val.fld f)).comp L.jac) none
        L.wantMetric
    else .raise ("domain mismatch")
  | .multifield m =>
    if L.jac.tgt = (Val.mf (R := R) m).domain then
      Linearization.make (L.val.mul (.mf m)) ((makeOp (Val.mf m)).comp L.jac) none
        L.wantMetric
    else .raise ("domain mismatch")
  | .other => .noneRes

/-- Source: `Linearization.make_var`: identity Jacobian
(`ScalingOperator(1., field.domain)`). -/
def Linearization.makeVar {R : Type} (v : Val R) (wm : Bool) : Linearization R :=
  ⟨v, LinOp.idOp v.domain, none, wm⟩

/-- Source: `Linearization.make_const`: zero Jacobian (`NullOperator`). -/
def Linearization.makeConst {R : Type} [CommRing R] (v : Val R) (wm : Bool) :
    Linearization R :=
  ⟨v, LinOp.nullOp v.domain v.domain, none, wm⟩

/-- Source: `Linearization.make_partial_var` (nifty5/linearization.py lines
181-191): empty `constants` falls back to `make_var`; otherwise the Jacobian
is the block-diagonal operator with `ScalingOperator(0.)` on the keys listed
in `constants` and `ScalingOperator(1.)` on the rest. -/
def Linearization.makePartVar {R : Type} [CommRing R] (f : MultiField R)
    (constants : List String) (wm : Bool) : Linearization R :=
  if constants.isEmpty then Linearization.makeVar (.mf f) wm
  else ⟨.mf f, blockDiagScaling f.domain (fun k => if k ∈ constants then 0 else 1),
    none, wm⟩

/-- An abstract linear operator exposing the four application modes
(times, adjoint, inverse, adjoint-inverse), indexed by their 2-bit code
(bit 0 = adjoint, bit 1 = inverse). -/
structure FourModeOp (α : Type) where
  app : ℕ → α → α

/-- A LinearOperator view: either a base operator or an `OperatorAdapter`
wrapping an operator with a transform code (source:
nifty6/operators/operator_adapter.py; 1 = adjoint, 2 = inverse,
3 = adjoint-inverse). -/
inductive LOp (α : Type)
  | base (b : FourModeOp α)
  | adapter (o : LOp α) (trafo : ℕ)

/-- Modelled from the spec (mode table of the missing linear_operator.py):
`OperatorAdapter.apply(x, mode)` dispatches to the base operator at the mode
`_modeTable[self._trafo][self._ilog[mode]]`, i.e. the mode code XORed with
the transform code. -/
def LOp.applyMode {α : Type} : LOp α → ℕ → α → α
  | .base b, m, x => b.app m x
  | .adapter o t, m, x => o.applyMode (m ^^^ t) x

/-- Source: `OperatorAdapter._flip_modes` (operator_adapter.py lines 39-42)
for the adapter case: `newtrafo = trafo ^ self._trafo`, returning the plain
wrapped operator when the codes cancel and one flat adapter otherwise.
The base case is modelled from the spec: `LinearOperator._flip_modes`
returns the operator itself for code 0 and wraps one adapter otherwise. -/
def LOp.flipModes {α : Type} : LOp α → ℕ → LOp α
  | .adapter o s, t => if t ^^^ s = 0 then o else .adapter o (t ^^^ s)
  | .base b, t => if t = 0 then .base b else .adapter (.base b) t

/-- Source: the `adjoint` property view (`_flip_modes(ADJOINT_BIT)`). -/
def LOp.adjointView {α : Type} (o : LOp α) : LOp α := o.flipModes 1

/-- Source: the `inverse` property view (`_flip_modes(INVERSE_BIT)`). -/
def LOp.inverseView {α : Type} (o : LOp α) : LOp α := o.flipModes 2

/-- Pointwise application of a scalar function to every component
(`Field.ptw` / `MultiField.ptw`). -/
def Val.ptw {R : Type} (g : R → R) : Val R → Val R
  | .fld f => .fld ⟨f.dom, g f.v⟩
  | .mf m => .mf ⟨m.val.map (fun p => (p.1, ⟨p.2.dom, g p.2.v⟩)),
      ALSorted_map m.val _ m.property⟩

/-- Deep embedding of the nonlinear operator graph of
nifty6/operators/operator.py.

* `leaf` stands for any concrete operator outside the combinator algebra
  (FFTs, field adapters, responses, ...).  It carries its domain, target,
  value map and point-dependent Jacobian — the calling convention every NIFTy
  operator follows when applied to a Linearization: value `f(x)`, Jacobian
  `df(x)` composed onto the incoming (trivial) Jacobian.  Leaves of this core
  do not attach metrics (energy leaves are external consumers, spec §1/§6),
  and a leaf that does not override
  `_simplify_for_constant_input_nontrivial` inherits the base implementation
  returning `(None, self)`.
* `funcApplier` is `_FunctionApplier`: a pointwise function together with its
  exact derivative, as registered in `ptw_dict` (nifty6/pointwise.py);
  its domain equals its target.
* `constOp` is `_ConstantOperator(dom, output)`; its target is
  `output.domain`.
* `chain`, `prod`, `sum` are `_OpChain`, `_OpProd`, `_OpSum`. -/
inductive Op (R : Type)
  | leaf (dom tgt : Dm) (fval : Val R → Val R) (fjac : Val R → LinOp R)
  | funcApplier (dom : Dm) (f f' : R → R)
  | constOp (dom : Dm) (out : Val R)
  | chain (ops : List (Op R))
  | prod (op1 op2 : Op R)
  | sum (op1 op2 : Op R)

mutual
/-- `Operator.domain`: for `_OpChain` the domain of the last factor, for
`_OpProd`/`_OpSum` the `domain_union` of the operands (already validated at
construction; the total `domainUnionD` is only consulted through well-formed
operators). -/
def Op.domainD {R : Type} : Op R → Dm
  | .leaf d _ _ _ => d
  | .funcApplier d _ _ => d
  | .constOp d _ => d
  | .chain l => chainDom l
  | .prod o1 o2 => domainUnionD o1.domainD o2.domainD
  | .sum o1 o2 => domainUnionD o1.domainD o2.domainD

/-- Domain of the last operator of a chain (`self._ops[-1].domain`). -/
def chainDom {R : Type} : List (Op R) → Dm
  | [] => .dt 0
  | [o] => o.domainD
  | _ :: t => chainDom t
end

/-- `Operator.target`: for `_OpChain` the target of the first factor
(`self._ops[0].target`), for `_OpProd` the target of `op1`, for `_OpSum` the
`domain_union` of the targets. -/
def Op.targetD {R : Type} : Op R → Dm
  | .leaf _ t _ _ => t
  | .funcApplier d _ _ => d
  | .constOp _ out => out.domain
  | .chain [] => .dt 0
  | .chain (o :: _) => o.targetD
  | .prod o1 _ => o1.targetD
  | .sum o1 o2 => domainUnionD o1.targetD o2.targetD

mutual
/-- One step of `_CombinedOperator.unpack`: a nested chain contributes its
recursively unpacked factors, any other operator is appended as a leaf. -/
def unpackOne {R : Type} : Op R → List (Op R) → List (Op R)
  | .chain l, res => unpackChain l res
  | o, res => res ++ [o]

/-- Source: `_CombinedOperator.unpack`: flatten nested chains into `res`. -/
def unpackChain {R : Type} : List (Op R) → List (Op R) → List (Op R)
  | [], res => res
  | op :: rest, res => unpackChain rest (unpackOne op res)
end

/-- Source: the loop of `_OpChain.__init__`: every adjacent pair must satisfy
`ops[i-1].domain == ops[i].target`. -/
def chainPairsOk {R : Type} : List (Op R) → Bool
  | [] => true
  | [_] => true
  | a :: b :: t => (decide (a.domainD = b.targetD)) && chainPairsOk (b :: t)

/-- Source: `_OpChain.__init__` raising `ValueError("domain mismatch")` on an
adjacent mismatch. -/
def mkChain {R : Type} (l : List (Op R)) : Except String (Op R) :=
  if chainPairsOk l then Except.ok (.chain l) else Except.error ("domain mismatch")

/-- Source: `_CombinedOperator.make`: unpack, return a single survivor bare,
else run the constructor checks. -/
def opChainMake {R : Type} (l : List (Op R)) : Except String (Op R) :=
  match unpackChain l [] with
  | [o] => Except.ok o
  | res => mkChain res

/-- Source: `Operator.__matmul__`: `_OpChain.make((self, x))`. -/
def opMatmul {R : Type} (a b : Op R) : Except String (Op R) := opChainMake [a, b]

/-- Source: `Operator.__call__` on an Operator argument (no value, no
Jacobian): `self @ x`. -/
def opCall {R : Type} (a b : Op R) : Except String (Op R) := opMatmul a b

/-- Source: `_OpProd.__init__`: `domain_union` of the domains (raising on a
key conflict), then the identical-target check
(`ValueError("target mismatch")`). -/
def opProdMake {R : Type} (o1 o2 : Op R) : Except String (Op R) := do
  let _ ← domainUnion o1.domainD o2.domainD
  if o1.targetD = o2.targetD then Except.ok (.prod o1 o2)
  else Except.error ("target mismatch")

/-- Source: `_OpSum.__init__`: `domain_union` of the domains and of the
targets. -/
def opSumMake {R : Type} (o1 o2 : Op R) : Except String (Op R) := do
  let _ ← domainUnion o1.domainD o2.domainD
  let _ ← domainUnion o1.targetD o2.targetD
  Except.ok (.sum o1 o2)

mutual
/-- Value-only evaluation `op(x)` on a plain Field/MultiField; every `apply`
begins with `_check_input`'s domain-identity check
(`_check_domain_equality`). -/
def Op.evalV {R : Type} [CommRing R] : Op R → Val R → Except String (Val R)
  | .leaf d _ fv _, x =>
    if x.domain = d then Except.ok (fv x) else Except.error ("domain mismatch")
  | .funcApplier d f _, x =>
    if x.domain = d then Except.ok (x.ptw f) else Except.error ("domain mismatch")
  | .constOp d out, x =>
    if x.domain = d then Except.ok out else Except.error ("domain mismatch")
  | .chain l, x =>
    if x.domain = chainDom l then evalChainV l x else Except.error ("domain mismatch")
  | .prod o1 o2, x =>
    if x.domain = domainUnionD o1.domainD o2.domainD then do
      let v1 ← x.extract o1.domainD
      let v2 ← x.extract o2.domainD
      let y1 ← o1.evalV v1
      let y2 ← o2.evalV v2
      Except.ok (y1.mul y2)
    else Except.error ("domain mismatch")
  | .sum o1 o2, x =>
    if x.domain = domainUnionD o1.domainD o2.domainD then do
      let v1 ← x.extract o1.domainD
      let v2 ← x.extract o2.domainD
      let y1 ← o1.evalV v1
      let y2 ← o2.evalV v2
      Except.ok (y1.unite y2)
    else Except.error ("domain mismatch")

/-- The `for op in reversed(self._ops): x = op(x)` loop of
`_OpChain.apply`. -/
def evalChainV {R : Type} [CommRing R] : List (Op R) → Val R → Except String (Val R)
  | [], x => Except.ok x
  | o :: rest, x => do
    let y ← evalChainV rest x
    o.evalV y
end

/-- Modelled from the spec (the nifty6 `Linearization.prepend_jac`): keep the
value, compose the accumulated Jacobian onto the new one.  No leaf of this
core attaches a metric, so the `SandwichOperator` branch of `prepend_jac`
never fires and the propagated metric is `None`. -/
def prependJac {R : Type} (L : Linearization R) (j : LinOp R) : Linearization R :=
  ⟨L.val, L.jac.comp j, none, L.wantMetric⟩

mutual
/-- Linearized evaluation `op(Linearization.make_var(v, wm))` — the calling
pattern every combinator uses for its children (`_check_input` forces the
incoming Jacobian to be the trivial `ScalingOperator(1.)`). -/
def Op.evalL {R : Type} [CommRing R] : Op R → Val R → Bool → Except String (Linearization R)
  | .leaf d _ fv fj, v, wm =>
    if v.domain = d then Except.ok ⟨fv v, fj v, none, wm⟩
    else Except.error ("domain mismatch")
  | .funcApplier d f f', v, wm =>
    if v.domain = d then
      Except.ok ⟨v.ptw f, (makeOp (v.ptw f')).comp (LinOp.idOp d), none, wm⟩
    else Except.error ("domain mismatch")
  | .constOp d out, v, wm =>
    if v.domain = d then
      Except.ok ⟨out, LinOp.nullOp d out.domain, none, wm⟩
    else Except.error ("domain mismatch")
  | .chain l, v, wm =>
    if v.domain = chainDom l then evalChainL l (Linearization.makeVar v wm)
    else Except.error ("domain mismatch")
  | .prod o1 o2, v, wm =>
    if v.domain = domainUnionD o1.domainD o2.domainD then do
      let v1 ← v.extract o1.domainD
      let v2 ← v.extract o2.domainD
      let lin1 ← o1.evalL v1 wm
      let lin2 ← o2.evalL v2 wm
      Except.ok ⟨lin1.val.mul lin2.val,
        ((makeOp lin1.val).comp lin2.jac).myadd ((makeOp lin2.val).comp lin1.jac) false,
        none, lin1.wantMetric⟩
    else Except.error ("domain mismatch")
  | .sum o1 o2, v, wm =>
    if v.domain = domainUnionD o1.domainD o2.domainD then do
      let v1 ← v.extract o1.domainD
      let v2 ← v.extract o2.domainD
      let lin1 ← o1.evalL v1 wm
      let lin2 ← o2.evalL v2 wm
      match lin1.metric, lin2.metric with
      | some m1, some m2 =>
        Except.ok ⟨lin1.val.unite lin2.val, lin1.jac.myadd lin2.jac false,
          some (m1.myadd m2 false), lin1.wantMetric⟩
      | _, _ =>
        Except.ok ⟨lin1.val.unite lin2.val, lin1.jac.myadd lin2.jac false,
          none, lin1.wantMetric⟩
    else Except.error ("domain mismatch")

/-- The `x = op(x)` loop of `_OpChain.apply` under linearization: each
`__call__` applies the operator at the current value with a trivial Jacobian
and prepends the accumulated Jacobian. -/
def evalChainL {R : Type} [CommRing R] : List (Op R) → Linearization R →
    Except String (Linearization R)
  | [], L => Except.ok L
  | o :: rest, L => do
    let L1 ← evalChainL rest L
    let L2 ← o.evalL L1.val L1.wantMetric
    Except.ok (prependJac L2 L1.jac)
end

/-- Keys of a MultiDomain-typed `Dm` (`set(fulldom.keys())`); the collector
only ever receives MultiDomain targets. -/
def dmKeys : Dm → List String
  | .dt _ => []
  | .md s => s.val.map Prod.fst

/-- Restriction of a MultiField to the keys satisfying a predicate. -/
def mfFilterKeys {R : Type} (m : MultiField R) (q : String → Bool) : MultiField R :=
  ⟨m.val.filter (fun p => q p.1), ALSorted_filter m.val _ m.property⟩

/-- Source: `_ConstCollector.__init__`: `self._const = None`,
`self._nc = set()`. -/
structure ConstCollector (R : Type) where
  c : Option (MultiField R)
  nc : List String

def CCempty {R : Type} : ConstCollector R := ⟨none, []⟩

/-- Source: `_ConstCollector.mult(const, fulldom)` (operator.py lines
288-301).  With `const is None` every key of `fulldom` is marked
non-constant and the already collected constants are left untouched;
otherwise the keys of `fulldom` missing from `const` are marked
non-constant, and the collected constants are either initialized to the
filtered `const` or multiplied key-wise (`self._const[key]*const[key]`)
over the keys of `const` outside `_nc`.  The collector is only invoked on
MultiDomain targets, so the constants are MultiFields. -/
def ConstCollector.mult {R : Type} [CommRing R] (cc : ConstCollector R)
    (const : Option (Val R)) (fulldom : Dm) : ConstCollector R :=
  match const with
  | none => ⟨cc.c, cc.nc ∪ dmKeys fulldom⟩
  | some (.mf m) =>
    let nc' := cc.nc ∪ (dmKeys fulldom).filter (fun k => decide (k ∉ m.val.map Prod.fst))
    match cc.c with
    | none => ⟨some (mfFilterKeys m (fun k => decide (k ∉ nc'))), nc'⟩
    | some old =>
      ⟨some ⟨(m.val.filter (fun p => decide (p.1 ∉ nc'))).map (fun p => (p.1,
          match lookA old.val p.1 with
          | some g => ⟨g.dom, g.v * p.2.v⟩
          | none => p.2)),
        ALSorted_map _ _ (ALSorted_filter m.val _ m.property)⟩, nc'⟩
  | some (.fld _) => cc

/-- Source: `_ConstCollector.add(const, fulldom)` (operator.py lines
303-317).  With `const is None` the keys of `fulldom` are merely added to
`_nc` — the already collected constants are NOT re-filtered; otherwise the
keys of `fulldom` missing from `const` are marked non-constant and the
collected constants are united with `const` (adding overlapping keys) and
filtered by the updated `_nc`. -/
def ConstCollector.add {R : Type} [CommRing R] (cc : ConstCollector R)
    (const : Option (Val R)) (fulldom : Dm) : ConstCollector R :=
  match const with
  | none => ⟨cc.c, cc.nc ∪ dmKeys fulldom⟩
  | some (.mf m) =>
    let nc' := cc.nc ∪ (dmKeys fulldom).filter (fun k => decide (k ∉ m.val.map Prod.fst))
    match cc.c with
    | none => ⟨some (mfFilterKeys m (fun k => decide (k ∉ nc'))), nc'⟩
    | some old =>
      ⟨some (mfFilterKeys (old.flexAddSub m false) (fun k => decide (k ∉ nc'))), nc'⟩
  | some (.fld _) => cc

/-- Source: `_ConstCollector.constfield`. -/
def ConstCollector.constfield {R : Type} (cc : ConstCollector R) :
    Option (MultiField R) := cc.c

/-- Source: the total-fold branch of `Operator.simplify_for_constant_input`:
`op = _ConstantOperator(self.domain, self(c_inp)); return op(c_inp), op` —
`op(c_inp)` re-checks the domain and returns the precomputed output. -/
def totalFold {R : Type} [CommRing R] (op : Op R) (c : Val R) :
    Except String (Option (Val R) × Op R) := do
  let out ← op.evalV c
  Except.ok (some out, .constOp op.domainD out)

mutual
/-- Source: `Operator.simplify_for_constant_input` together with each class's
`_simplify_for_constant_input_nontrivial`:

* `c_inp is None` returns `(None, self)`;
* a `c_inp` covering the whole domain folds the operator into a
  `_ConstantOperator`;
* `_OpChain` (on a MultiDomain domain) threads the folded constant from the
  innermost factor outwards, rebuilding `op(newop)` with the ORIGINAL outer
  factors and keeping only the innermost rewritten one;
* `_OpProd`/`_OpSum` recurse into both operands via
  `c_inp.extract_part(op_i.domain)` and, when the target is a MultiDomain,
  collect the constant output keys with `_ConstCollector.mult`/`add`;
* every other operator uses the base implementation `(None, self)`. -/
def Op.simplifyConst {R : Type} [CommRing R] :
    Op R → Option (Val R) → Except String (Option (Val R) × Op R)
  | op, none => Except.ok (none, op)
  | .chain l, some c =>
    if c.domain = (Op.chain l).domainD then totalFold (.chain l) c
    else if (chainDom l).isMulti then do
      let (c', newop) ← simplifyChainOps l (some c)
      match newop with
      | some n => Except.ok (c', n)
      | none => Except.error ("empty chain")
    else Except.ok (none, .chain l)
  | .prod o1 o2, some c =>
    if c.domain = (Op.prod o1 o2).domainD then totalFold (.prod o1 o2) c
    else do
      let p1 ← c.extractPart o1.domainD
      let (f1, o1') ← o1.simplifyConst p1
      let p2 ← c.extractPart o2.domainD
      let (f2, o2') ← o2.simplifyConst p2
      if (o1.targetD).isMulti then
        let cc := (CCempty.mult f1 o1'.targetD).mult f2 o2'.targetD
        let newop ← opProdMake o1' o2'
        Except.ok ((cc.constfield).map .mf, newop)
      else do
        let newop ← opProdMake o1' o2'
        Except.ok (none, newop)
  | .sum o1 o2, some c =>
    if c.domain = (Op.sum o1 o2).domainD then totalFold (.sum o1 o2) c
    else do
      let p1 ← c.extractPart o1.domainD
      let (f1, o1') ← o1.simplifyConst p1
      let p2 ← c.extractPart o2.domainD
      let (f2, o2') ← o2.simplifyConst p2
      if (domainUnionD o1.targetD o2.targetD).isMulti then
        let cc := (CCempty.add f1 o1'.targetD).add f2 o2'.targetD
        let newop ← opSumMake o1' o2'
        Except.ok ((cc.constfield).map .mf, newop)
      else do
        let newop ← opSumMake o1' o2'
        Except.ok (none, newop)
  | op, some c =>
    if c.domain = op.domainD then totalFold op c
    else Except.ok (none, op)

/-- Source: the `for op in reversed(self._ops)` loop of
`_OpChain._simplify_for_constant_input_nontrivial`: thread the folded
constant through `op.simplify_for_constant_input`, keep the rewritten
innermost factor, and recompose the ORIGINAL outer factors via `op(newop)`
(= `op @ newop`). -/
def simplifyChainOps {R : Type} [CommRing R] :
    List (Op R) → Option (Val R) → Except String (Option (Val R) × Option (Op R))
  | [], c => Except.ok (c, none)
  | o :: rest, c => do
    let (c1, no) ← simplifyChainOps rest c
    let (c2, t) ← o.simplifyConst c1
    match no with
    | none => Except.ok (c2, some t)
    | some n => do
      let m ← opCall o n
      Except.ok (c2, some m)
end

mutual
/-- Well-formedness: the operator graph was built through the (checked)
public constructors, and every leaf's value map respects its declared
domain and target. -/
def Op.WF {R : Type} [CommRing R] : Op R → Prop
  | .leaf d t fv _ => ∀ v : Val R, v.domain = d → (fv v).domain = t
  | .funcApplier _ _ _ => True
  | .constOp _ _ => True
  | .chain l => l ≠ [] ∧ chainPairsOk l = true ∧ chainWFs l
  | .prod o1 o2 => (∃ u, domainUnion o1.domainD o2.domainD = Except.ok u) ∧
      o1.targetD = o2.targetD ∧ o1.WF ∧ o2.WF
  | .sum o1 o2 => (∃ u, domainUnion o1.domainD o2.domainD = Except.ok u) ∧
      (∃ u, domainUnion o1.targetD o2.targetD = Except.ok u) ∧ o1.WF ∧ o2.WF

def chainWFs {R : Type} [CommRing R] : List (Op R) → Prop
  | [] => True
  | o :: t => o.WF ∧ chainWFs t
end

theorem lookA_map2 {α β : Type} (l : AL α) (h : String × α → β) (k : String) :
    lookA (l.map (fun p => (p.1, h p))) k = (lookA l k).map (fun v => h (k, v)) := by
  induction l with
  | nil => simp [lookA_nil]
  | cons p ps ih =>
    rw [List.map_cons, lookA_cons, lookA_cons]
    by_cases hp : p.1 = k
    · rw [if_pos hp, if_pos hp]
      cases p with
      | mk p1 p2 =>
        simp only at hp
        subst hp
        rfl
    · rw [if_neg hp, if_neg hp, ih]

/-- Lookup in a MultiField's domain is the domain of the looked-up field. -/
theorem mfDomain_lookup {R : Type} (m : MultiField R) (k : String) :
    m.domain.lookup k = (lookA m.val k).map Field.dom := by
  rw [MultiDomain.lookup, MultiField.domain]
  rw [lookA_map2 m.val (fun p => p.2.dom) k]

/-- Generalized fold-merge lookup: folding the entries of `l` (transformed by
`tr`) into a sorted accumulator with combination `comb`. -/
theorem foldl_insW_lookA_gen {α : Type} (comb : α → α → α) (tr : α → α)
    (l : AL α) (acc : AL α) (h : ALSorted acc) (hnd : (l.map Prod.fst).Nodup)
    (k : String) :
    lookA (l.foldl (fun acc p => insW comb (p.1, tr p.2) acc) acc) k =
      match lookA l k with
      | some v =>
        (match lookA acc k with
         | some old => some (comb (tr v) old)
         | none => some (tr v))
      | none => lookA acc k := by
  induction l generalizing acc with
  | nil => simp [lookA_nil]
  | cons p t ih =>
    rw [List.map_cons, List.nodup_cons] at hnd
    rw [List.foldl_cons, ih (insW comb (p.1, tr p.2) acc) (insW_sorted comb _ acc h) hnd.2,
      lookA_cons]
    have hins := insW_lookA comb (p.1, tr p.2) acc h k
    by_cases hk : p.1 = k
    · have htn : lookA t k = none := by
        rw [lookA_none_iff]
        intro r hr hc
        exact hnd.1 (hk ▸ hc ▸ List.mem_map_of_mem Prod.fst hr)
      rw [htn, if_pos hk]
      rw [if_pos hk.symm] at hins
      rw [hins]
    · rw [if_neg hk]
      rw [if_neg (fun hc => hk hc.symm)] at hins
      cases lookA t k <;> rw [hins]

/-- Lookup characterization of `flexible_addsub`. -/
theorem flexAddSub_lookA {R : Type} [CommRing R] (a b : MultiField R) (neg : Bool)
    (k : String) :
    lookA (a.flexAddSub b neg).val k =
      match lookA a.val k, lookA b.val k with
      | some f, some g => some ⟨f.dom, if neg then f.v - g.v else f.v + g.v⟩
      | some f, none => some f
      | none, some g => some (if neg then ⟨g.dom, -g.v⟩ else g)
      | none, none => none := by
  have hh := foldl_insW_lookA_gen
    (fun newf oldf => (⟨oldf.dom, oldf.v + newf.v⟩ : Field R))
    (fun f => ⟨f.dom, if neg then -f.v else f.v⟩) b.val a.val a.property
    (sorted_keys_nodup b.property) k
  rw [show (a.flexAddSub b neg).val = b.val.foldl (fun acc p =>
      insW (fun newf oldf => (⟨oldf.dom, oldf.v + newf.v⟩ : Field R))
        (p.1, ⟨p.2.dom, if neg then -p.2.v else p.2.v⟩) acc) a.val from rfl]
  rw [hh]
  cases hb : lookA b.val k with
  | some g =>
    cases ha : lookA a.val k with
    | some f =>
      have hv : f.v + (if neg then -g.v else g.v) = if neg then f.v - g.v else f.v + g.v := by
        cases neg <;> simp [sub_eq_add_neg]
      simp only []
      rw [show (⟨f.dom, f.v + (if neg then -g.v else g.v)⟩ : Field R) =
        ⟨f.dom, if neg then f.v - g.v else f.v + g.v⟩ from by rw [hv]]
    | none =>
      cases neg <;> rfl
  | none =>
    cases ha : lookA a.val k <;> rfl

theorem mapped_domain {R : Type} (m : MultiField R) (h : String × Field R → Field R)
    (hdom : ∀ p ∈ m.val, (h p).dom = p.2.dom) :
    MultiField.domain ⟨m.val.map (fun p => (p.1, h p)),
      ALSorted_map m.val h m.property⟩ = m.domain := by
  apply Subtype.ext
  show (m.val.map (fun p => (p.1, h p))).map (fun p => (p.1, p.2.dom)) =
    m.val.map (fun p => (p.1, p.2.dom))
  rw [List.map_map]
  apply List.map_congr_left
  intro p hp
  simp only [Function.comp]
  rw [hdom p hp]

theorem ptw_domain {R : Type} (g : R → R) (v : Val R) : (v.ptw g).domain = v.domain := by
  cases v with
  | fld f => rfl
  | mf m =>
    rw [Val.ptw, Val.domain, Val.domain]
    congr 1
    exact mapped_domain m (fun p => ⟨p.2.dom, g p.2.v⟩) (fun p _ => rfl)

theorem mul_domain {R : Type} [CommRing R] (a b : Val R) : (a.mul b).domain = a.domain := by
  cases a with
  | fld f => cases b <;> rfl
  | mf m =>
    cases b with
    | fld g => rfl
    | mf n =>
      rw [Val.mul, Val.domain, Val.domain]
      congr 1
      apply mapped_domain m (fun p =>
        match lookA n.val p.1 with
        | some g => (⟨p.2.dom, p.2.v * g.v⟩ : Field R)
        | none => p.2)
      intro p _
      cases lookA n.val p.1 <;> rfl

theorem domainUnionD_eq {a b u : Dm} (h : domainUnion a b = Except.ok u) :
    domainUnionD a b = u := by
  rw [domainUnionD, h]

/-- Sub-domain relation: every binding of the first domain appears identically
in the second. -/
def dmSub : Dm → Dm → Prop
  | .dt a, .dt b => a = b
  | .md s, .md t => ∀ k v, s.lookup k = some v → t.lookup k = some v
  | _, _ => False

theorem md_union2_compat {a b : MultiDomain} {u : MultiDomain}
    (h : MultiDomain.union [a, b] = Except.ok u) : compatible [a, b] := by
  by_contra hc
  rw [union_err_of_not_compatible [a, b] hc] at h
  cases h

theorem md_sub_of_union_ok {a b : MultiDomain} {u : Dm}
    (h : domainUnion (.md a) (.md b) = Except.ok u) :
    ∃ s, u = .md s ∧ dmSub (.md a) u ∧ dmSub (.md b) u ∧
      (∀ k v, s.lookup k = some v →
        a.lookup k = some v ∨ b.lookup k = some v) := by
  rw [domainUnion] at h
  cases hu : MultiDomain.union [a, b] with
  | ok s =>
    rw [hu] at h
    cases h
    have hcompat := md_union2_compat hu
    rcases union_ok_of_compatible [a, b] hcompat with ⟨s', hs', hchar⟩
    rw [hu] at hs'
    cases hs'
    refine ⟨s, rfl, ?_, ?_, ?_⟩
    · intro k v hv
      exact (hchar k v).mpr ⟨a, by simp, hv⟩
    · intro k v hv
      exact (hchar k v).mpr ⟨b, by simp, hv⟩
    · intro k v hv
      rcases (hchar k v).mp hv with ⟨d, hd, hdv⟩
      rcases List.mem_cons.mp hd with hd | hd
      · exact Or.inl (hd ▸ hdv)
      · rw [List.mem_singleton] at hd
        exact Or.inr (hd ▸ hdv)
  | error e =>
    rw [hu] at h
    cases h

theorem dmSub_of_union_ok {d1 d2 u : Dm} (h : domainUnion d1 d2 = Except.ok u) :
    dmSub d1 u ∧ dmSub d2 u := by
  cases d1 with
  | dt a =>
    cases d2 with
    | dt b =>
      rw [domainUnion] at h
      by_cases hab : a = b
      · rw [if_pos hab] at h
        cases h
        exact ⟨rfl, hab.symm⟩
      · rw [if_neg hab] at h
        cases h
    | md t => simp [domainUnion] at h
  | md s =>
    cases d2 with
    | dt b => simp [domainUnion] at h
    | md t =>
      rcases md_sub_of_union_ok h with ⟨u', he, h1, h2, _⟩
      exact ⟨h1, h2⟩

theorem extractRawMF_ok {R : Type} (l : AL (Field R)) (sl : AL DomainTuple)
    (hnd : (sl.map Prod.fst).Nodup)
    (h : ∀ k d, lookA sl k = some d → ∃ f, lookA l k = some f ∧ f.dom = d) :
    ∃ rl, extractRawMF l sl = Except.ok rl ∧
      rl.map (fun p => (p.1, p.2.dom)) = sl := by
  induction sl with
  | nil => exact ⟨[], rfl, rfl⟩
  | cons p rest ih =>
    rw [List.map_cons, List.nodup_cons] at hnd
    rcases h p.1 p.2 (by rw [lookA_cons, if_pos rfl]) with ⟨f, hf, hfd⟩
    have hrest : ∀ k d, lookA rest k = some d → ∃ g, lookA l k = some g ∧ g.dom = d := by
      intro k d hd
      apply h k d
      rw [lookA_cons]
      have hk : p.1 ≠ k := by
        intro hc
        exact hnd.1 (hc ▸ mem_keys_of_lookA_some hd)
      rw [if_neg hk]
      exact hd
    rcases ih hnd.2 hrest with ⟨rl, hrl, hmap⟩
    refine ⟨(p.1, f) :: rl, ?_, ?_⟩
    · simp only [extractRawMF, hf, hfd, if_pos, hrl, Except.bind]
      rfl
    · rw [List.map_cons, hmap, hfd]

/-- Extraction of a MultiField along a sub-MultiDomain succeeds and yields a
MultiField over exactly that subdomain. -/
theorem mf_extract_ok {R : Type} (m : MultiField R) (s : MultiDomain)
    (hsub : ∀ k v, s.lookup k = some v → m.domain.lookup k = some v) :
    ∃ r, m.extract s = Except.ok r ∧ r.domain = s := by
  have h : ∀ k d, lookA s.val k = some d → ∃ f, lookA m.val k = some f ∧ f.dom = d := by
    intro k d hd
    have := hsub k d hd
    rw [mfDomain_lookup] at this
    cases hm : lookA m.val k with
    | some f =>
      rw [hm] at this
      exact ⟨f, rfl, Option.some.inj this⟩
    | none =>
      rw [hm] at this
      cases this
  rcases extractRawMF_ok m.val s.val (sorted_keys_nodup s.property) h with ⟨rl, hrl, hmap⟩
  rw [MultiField.extract]
  split
  · rename_i r' h'
    rw [hrl] at h'
    cases h'
    refine ⟨_, rfl, ?_⟩
    apply Subtype.ext
    exact hmap
  · rename_i e h'
    rw [hrl] at h'
    cases h'

/-- `x.extract(d)` succeeds whenever `d` is a sub-domain of `x`'s domain and
the result lives exactly over `d`. -/
theorem val_extract_ok {R : Type} (x : Val R) (d u : Dm) (hx : x.domain = u)
    (hsub : dmSub d u) : ∃ y, x.extract d = Except.ok y ∧ y.domain = d := by
  cases x with
  | fld f =>
    cases d with
    | dt a =>
      cases u with
      | dt b =>
        rw [Val.domain] at hx
        cases hx
        rw [dmSub] at hsub
        refine ⟨.fld f, ?_, by rw [hsub, Val.domain]⟩
        rw [Val.extract, if_pos hsub.symm]
      | md t => cases hx
    | md s =>
      cases u with
      | dt b => simp [dmSub] at hsub
      | md t => cases hx
  | mf m =>
    cases d with
    | dt a =>
      cases u with
      | dt b => cases hx
      | md t => simp [dmSub] at hsub
    | md s =>
      cases u with
      | dt b => cases hx
      | md t =>
        rw [Val.domain] at hx
        cases hx
        rw [dmSub] at hsub
        rcases mf_extract_ok m s hsub with ⟨r, hr, hrd⟩
        refine ⟨.mf r, ?_, by rw [Val.domain, hrd]⟩
        rw [Val.extract, hr]
        rfl

/-- Domain of `y1.unite(y2)` over a validated target union. -/
theorem unite_domain {R : Type} [CommRing R] (y1 y2 : Val R) (t1 t2 t : Dm)
    (h1 : y1.domain = t1) (h2 : y2.domain = t2)
    (hu : domainUnion t1 t2 = Except.ok t) : (y1.unite y2).domain = t := by
  cases y1 with
  | fld f =>
    cases y2 with
    | fld g =>
      rw [Val.domain] at h1
      subst h1
      cases t2 with
      | dt b =>
        rw [domainUnion] at hu
        by_cases hab : f.dom = b
        · rw [if_pos hab] at hu
          cases hu
          rfl
        · rw [if_neg hab] at hu
          cases hu
      | md tt => simp [domainUnion] at hu
    | mf n =>
      simp only [Val.domain] at h1 h2
      subst h1
      subst h2
      simp [domainUnion] at hu
  | mf m =>
    cases y2 with
    | fld g =>
      simp only [Val.domain] at h1 h2
      subst h1
      subst h2
      simp [domainUnion] at hu
    | mf n =>
      simp only [Val.domain] at h1 h2
      subst h1
      subst h2
      rcases md_sub_of_union_ok hu with ⟨s, he, hs1, hs2, hcover⟩
      subst he
      rw [Val.unite, Val.flexAddSub, Val.domain]
      congr 1
      apply multiDomain_ext
      intro k
      rw [mfDomain_lookup, flexAddSub_lookA]
      rw [dmSub] at hs1 hs2
      cases hm : lookA m.val k with
      | some f =>
        have hsm : s.lookup k = some f.dom := by
          apply hs1
          rw [mfDomain_lookup, hm]
          rfl
        cases hn : lookA n.val k <;> rw [hsm] <;> rfl
      | none =>
        cases hn : lookA n.val k with
        | some g =>
          have hsn : s.lookup k = some g.dom := by
            apply hs2
            rw [mfDomain_lookup, hn]
            rfl
          rw [hsn]
          rfl
        | none =>
          cases hsk : s.lookup k with
          | none => rfl
          | some w =>
            rcases hcover k w hsk with hc | hc
            · rw [mfDomain_lookup, hm] at hc
              cases hc
            · rw [mfDomain_lookup, hn] at hc
              cases hc

theorem exbind_ok {ε α β : Type} (a : α) (f : α → Except ε β) :
    (Except.ok a >>= f) = f a := rfl

theorem exbind_error {ε α β : Type} (e : ε) (f : α → Except ε β) :
    ((Except.error e : Except ε α) >>= f) = Except.error e := rfl

/-- Target of the first factor of a chain (`self._ops[0].target`). -/
def chainTgt {R : Type} : List (Op R) → Dm
  | [] => .dt 0
  | o :: _ => o.targetD

theorem targetD_chain {R : Type} (l : List (Op R)) :
    (Op.chain l).targetD = chainTgt l := by
  cases l <;> rfl

theorem chainPairsOk_cons2 {R : Type} (a b : Op R) (t : List (Op R))
    (h : chainPairsOk (a :: b :: t) = true) :
    a.domainD = b.targetD ∧ chainPairsOk (b :: t) = true := by
  rw [chainPairsOk, Bool.and_eq_true, decide_eq_true_iff] at h
  exact h

mutual
theorem evalV_sound {R : Type} [CommRing R] (op : Op R) (h : op.WF) (x : Val R)
    (hx : x.domain = op.domainD) :
    ∃ y, op.evalV x = Except.ok y ∧ y.domain = op.targetD := by
  cases op with
  | leaf d t fv fj =>
    simp only [Op.WF] at h
    simp only [Op.domainD] at hx
    refine ⟨fv x, ?_, h x hx⟩
    simp only [Op.evalV, hx, if_pos]
  | funcApplier d f f' =>
    simp only [Op.domainD] at hx
    refine ⟨x.ptw f, ?_, ?_⟩
    · simp only [Op.evalV, hx, if_pos]
    · rw [ptw_domain, hx]
      rfl
  | constOp d out =>
    simp only [Op.domainD] at hx
    refine ⟨out, ?_, rfl⟩
    simp only [Op.evalV, hx, if_pos]
  | chain l =>
    simp only [Op.WF] at h
    simp only [Op.domainD] at hx
    rcases evalChainV_sound l h.2.1 h.2.2 x h.1 hx with ⟨y, hy, hyd⟩
    refine ⟨y, ?_, by rw [targetD_chain]; exact hyd⟩
    simp only [Op.evalV, hx, if_pos, hy]
  | prod o1 o2 =>
    simp only [Op.WF] at h
    rcases h with ⟨⟨u, hu⟩, htgt, hw1, hw2⟩
    simp only [Op.domainD] at hx
    rcases dmSub_of_union_ok hu with ⟨hs1, hs2⟩
    have hxu : x.domain = u := by rw [hx, domainUnionD_eq hu]
    rcases val_extract_ok x o1.domainD u hxu hs1 with ⟨v1, hv1, hv1d⟩
    rcases val_extract_ok x o2.domainD u hxu hs2 with ⟨v2, hv2, hv2d⟩
    rcases evalV_sound o1 hw1 v1 hv1d with ⟨y1, hy1, hy1d⟩
    rcases evalV_sound o2 hw2 v2 hv2d with ⟨y2, hy2, hy2d⟩
    refine ⟨y1.mul y2, ?_, ?_⟩
    · simp only [Op.evalV, hx, if_pos, hv1, hv2, hy1, hy2, exbind_ok]
    · rw [mul_domain, hy1d]
      rfl
  | sum o1 o2 =>
    simp only [Op.WF] at h
    rcases h with ⟨⟨u, hu⟩, ⟨ut, hut⟩, hw1, hw2⟩
    simp only [Op.domainD] at hx
    rcases dmSub_of_union_ok hu with ⟨hs1, hs2⟩
    have hxu : x.domain = u := by rw [hx, domainUnionD_eq hu]
    rcases val_extract_ok x o1.domainD u hxu hs1 with ⟨v1, hv1, hv1d⟩
    rcases val_extract_ok x o2.domainD u hxu hs2 with ⟨v2, hv2, hv2d⟩
    rcases evalV_sound o1 hw1 v1 hv1d with ⟨y1, hy1, hy1d⟩
    rcases evalV_sound o2 hw2 v2 hv2d with ⟨y2, hy2, hy2d⟩
    refine ⟨y1.unite y2, ?_, ?_⟩
    · simp only [Op.evalV, hx, if_pos, hv1, hv2, hy1, hy2, exbind_ok]
    · rw [unite_domain y1 y2 o1.targetD o2.targetD ut hy1d hy2d hut]
      rw [Op.targetD, domainUnionD_eq hut]

theorem evalChainV_sound {R : Type} [CommRing R] (l : List (Op R))
    (hp : chainPairsOk l = true) (hw : chainWFs l) (x : Val R) (hne : l ≠ [])
    (hx : x.domain = chainDom l) :
    ∃ y, evalChainV l x = Except.ok y ∧ y.domain = chainTgt l := by
  cases l with
  | nil => exact absurd rfl hne
  | cons o rest =>
    cases rest with
    | nil =>
      simp only [chainWFs] at hw
      simp only [chainDom] at hx
      rcases evalV_sound o hw.1 x hx with ⟨y, hy, hyd⟩
      refine ⟨y, ?_, hyd⟩
      rw [show evalChainV [o] x = (Except.ok x >>= fun y => o.evalV y) from rfl,
        exbind_ok]
      exact hy
    | cons r1 rt =>
      rcases chainPairsOk_cons2 o r1 rt hp with ⟨hdom, hp'⟩
      simp only [chainWFs] at hw
      have hx' : x.domain = chainDom (r1 :: rt) := hx
      rcases evalChainV_sound (r1 :: rt) hp' hw.2 x (by simp) hx' with ⟨y, hy, hyd⟩
      have hyd' : y.domain = o.domainD := by
        rw [hyd, chainTgt, ← hdom]
      rcases evalV_sound o hw.1 y hyd' with ⟨z, hz, hzd⟩
      refine ⟨z, ?_, hzd⟩
      rw [show evalChainV (o :: r1 :: rt) x =
        (evalChainV (r1 :: rt) x >>= fun y => o.evalV y) from rfl, hy, exbind_ok]
      exact hz
end

mutual
theorem evalL_sound {R : Type} [CommRing R] (op : Op R) (h : op.WF) (x : Val R)
    (wm : Bool) (hx : x.domain = op.domainD) :
    ∃ L, op.evalL x wm = Except.ok L ∧ L.val.domain = op.targetD := by
  cases op with
  | leaf d t fv fj =>
    simp only [Op.WF] at h
    simp only [Op.domainD] at hx
    refine ⟨⟨fv x, fj x, none, wm⟩, ?_, h x hx⟩
    simp only [Op.evalL, hx, if_pos]
  | funcApplier d f f' =>
    simp only [Op.domainD] at hx
    refine ⟨⟨x.ptw f, (makeOp (x.ptw f')).comp (LinOp.idOp d), none, wm⟩, ?_, ?_⟩
    · simp only [Op.evalL, hx, if_pos]
    · show (x.ptw f).domain = _
      rw [ptw_domain, hx]
      rfl
  | constOp d out =>
    simp only [Op.domainD] at hx
    refine ⟨⟨out, LinOp.nullOp d out.domain, none, wm⟩, ?_, rfl⟩
    simp only [Op.evalL, hx, if_pos]
  | chain l =>
    simp only [Op.WF] at h
    simp only [Op.domainD] at hx
    rcases evalChainL_sound l h.2.1 h.2.2 (Linearization.makeVar x wm) h.1 hx with
      ⟨L, hL, hLd⟩
    refine ⟨L, ?_, by rw [targetD_chain]; exact hLd⟩
    simp only [Op.evalL, hx, if_pos, hL]
  | prod o1 o2 =>
    simp only [Op.WF] at h
    rcases h with ⟨⟨u, hu⟩, htgt, hw1, hw2⟩
    simp only [Op.domainD] at hx
    rcases dmSub_of_union_ok hu with ⟨hs1, hs2⟩
    have hxu : x.domain = u := by rw [hx, domainUnionD_eq hu]
    rcases val_extract_ok x o1.domainD u hxu hs1 with ⟨v1, hv1, hv1d⟩
    rcases val_extract_ok x o2.domainD u hxu hs2 with ⟨v2, hv2, hv2d⟩
    rcases evalL_sound o1 hw1 v1 wm hv1d with ⟨L1, hL1, hL1d⟩
    rcases evalL_sound o2 hw2 v2 wm hv2d with ⟨L2, hL2, hL2d⟩
    refine ⟨⟨L1.val.mul L2.val,
      ((makeOp L1.val).comp L2.jac).myadd ((makeOp L2.val).comp L1.jac) false,
      none, L1.wantMetric⟩, ?_, ?_⟩
    · simp only [Op.evalL, hx, if_pos, hv1, hv2, hL1, hL2, exbind_ok]
    · show (L1.val.mul L2.val).domain = _
      rw [mul_domain, hL1d]
      rfl
  | sum o1 o2 =>
    simp only [Op.WF] at h
    rcases h with ⟨⟨u, hu⟩, ⟨ut, hut⟩, hw1, hw2⟩
    simp only [Op.domainD] at hx
    rcases dmSub_of_union_ok hu with ⟨hs1, hs2⟩
    have hxu : x.domain = u := by rw [hx, domainUnionD_eq hu]
    rcases val_extract_ok x o1.domainD u hxu hs1 with ⟨v1, hv1, hv1d⟩
    rcases val_extract_ok x o2.domainD u hxu hs2 with ⟨v2, hv2, hv2d⟩
    rcases evalL_sound o1 hw1 v1 wm hv1d with ⟨L1, hL1, hL1d⟩
    rcases evalL_sound o2 hw2 v2 wm hv2d with ⟨L2, hL2, hL2d⟩
    have hud : (L1.val.unite L2.val).domain = (Op.sum o1 o2).targetD := by
      rw [unite_domain L1.val L2.val o1.targetD o2.targetD ut hL1d hL2d hut]
      rw [Op.targetD, domainUnionD_eq hut]
    cases hm1 : L1.metric with
    | some m1 =>
      cases hm2 : L2.metric with
      | some m2 =>
        refine ⟨⟨L1.val.unite L2.val, L1.jac.myadd L2.jac false,
          some (m1.myadd m2 false), L1.wantMetric⟩, ?_, hud⟩
        simp only [Op.evalL, hx, if_pos, hv1, hv2, hL1, hL2, exbind_ok, hm1, hm2]
      | none =>
        refine ⟨⟨L1.val.unite L2.val, L1.jac.myadd L2.jac false,
          none, L1.wantMetric⟩, ?_, hud⟩
        simp only [Op.evalL, hx, if_pos, hv1, hv2, hL1, hL2, exbind_ok, hm1, hm2]
    | none =>
      refine ⟨⟨L1.val.unite L2.val, L1.jac.myadd L2.jac false,
        none, L1.wantMetric⟩, ?_, hud⟩
      simp only [Op.evalL, hx, if_pos, hv1, hv2, hL1, hL2, exbind_ok, hm1]

theorem evalChainL_sound {R : Type} [CommRing R] (l : List (Op R))
    (hp : chainPairsOk l = true) (hw : chainWFs l) (L : Linearization R)
    (hne : l ≠ []) (hx : L.val.domain = chainDom l) :
    ∃ M, evalChainL l L = Except.ok M ∧ M.val.domain = chainTgt l := by
  cases l with
  | nil => exact absurd rfl hne
  | cons o rest =>
    cases rest with
    | nil =>
      simp only [chainWFs] at hw
      simp only [chainDom] at hx
      rcases evalL_sound o hw.1 L.val L.wantMetric hx with ⟨M, hM, hMd⟩
      refine ⟨prependJac M L.jac, ?_, hMd⟩
      rw [show evalChainL [o] L = (Except.ok L >>= fun L1 =>
        (o.evalL L1.val L1.wantMetric >>= fun L2 =>
          Except.ok (prependJac L2 L1.jac))) from rfl, exbind_ok, hM, exbind_ok]
    | cons r1 rt =>
      rcases chainPairsOk_cons2 o r1 rt hp with ⟨hdom, hp'⟩
      simp only [chainWFs] at hw
      rcases evalChainL_sound (r1 :: rt) hp' hw.2 L (by simp) hx with ⟨M1, hM1, hM1d⟩
      have hM1d' : M1.val.domain = o.domainD := by
        rw [hM1d, chainTgt, ← hdom]
      rcases evalL_sound o hw.1 M1.val M1.wantMetric hM1d' with ⟨M2, hM2, hM2d⟩
      refine ⟨prependJac M2 M1.jac, ?_, hM2d⟩
      rw [show evalChainL (o :: r1 :: rt) L = (evalChainL (r1 :: rt) L >>= fun L1 =>
        (o.evalL L1.val L1.wantMetric >>= fun L2 =>
          Except.ok (prependJac L2 L1.jac))) from rfl, hM1, exbind_ok, hM2, exbind_ok]
end

/-- `isinstance(op, cls)` for `cls = _OpChain`, as tested by
`_CombinedOperator.unpack`. -/
def Op.isChain {R : Type} : Op R → Bool
  | .chain _ => true
  | _ => false

theorem unpackChain_cons_nonchain {R : Type} (o : Op R) (rest res : List (Op R))
    (h : o.isChain = false) :
    unpackChain (o :: rest) res = unpackChain rest (res ++ [o]) := by
  cases o with
  | chain l => simp [Op.isChain] at h
  | leaf d t fv fj => rfl
  | funcApplier d f f' => rfl
  | constOp d out => rfl
  | prod o1 o2 => rfl
  | sum o1 o2 => rfl

theorem unpackChain_cons_chain {R : Type} (l : List (Op R)) (rest res : List (Op R)) :
    unpackChain (.chain l :: rest) res = unpackChain rest (unpackChain l res) := rfl

theorem unpackChain_nil {R : Type} (res : List (Op R)) : unpackChain [] res = res := rfl

theorem unpack_pair_nonchain {R : Type} (a b : Op R) (ha : a.isChain = false)
    (hb : b.isChain = false) (res : List (Op R)) :
    unpackChain [a, b] res = res ++ [a, b] := by
  rw [unpackChain_cons_nonchain a [b] res ha, unpackChain_cons_nonchain b [] _ hb]
  simp [unpackChain]

theorem mkChain_pair_ok {R : Type} (a b : Op R) (hab : a.domainD = b.targetD) :
    mkChain [a, b] = Except.ok (.chain [a, b]) := by
  rw [mkChain, if_pos]
  simp [chainPairsOk, hab]

/-- C3: every domain/target mismatch between two operands is raised at
construction of the chain/product/sum combinator (chain: adjacent
domain/target disagreement; product: differing targets; product and sum:
a MultiDomain key conflict between the operand domains), and a successfully
constructed combinator built from well-formed operands never raises during
`apply`, neither in value-only nor in linearized evaluation. -/
theorem C3_construction_time_checks {R : Type} [CommRing R] (o1 o2 : Op R)
    (hw1 : o1.WF) (hw2 : o2.WF) :
    (o1.domainD ≠ o2.targetD → mkChain [o1, o2] = Except.error ("domain mismatch")) ∧
    (o1.targetD ≠ o2.targetD → ∃ e, opProdMake o1 o2 = Except.error e) ∧
    (∀ d1 d2, o1.domainD = .md d1 → o2.domainD = .md d2 → ¬ compatible [d1, d2] →
      opProdMake o1 o2 = Except.error ("domain mismatch") ∧
      opSumMake o1 o2 = Except.error ("domain mismatch")) ∧
    (∀ op, (mkChain [o1, o2] = Except.ok op ∨ opProdMake o1 o2 = Except.ok op ∨
        opSumMake o1 o2 = Except.ok op) →
      ∀ x : Val R, x.domain = op.domainD →
        (∃ y, op.evalV x = Except.ok y) ∧ ∀ wm, ∃ L, op.evalL x wm = Except.ok L) := by
  refine ⟨?_, ?_, ?_, ?_⟩
  · intro hne
    rw [mkChain, if_neg]
    intro hp
    exact hne (chainPairsOk_cons2 o1 o2 [] hp).1
  · intro ht
    cases hu : domainUnion o1.domainD o2.domainD with
    | error e =>
      refine ⟨e, ?_⟩
      simp only [opProdMake, hu, exbind_error]
    | ok u =>
      refine ⟨"target mismatch", ?_⟩
      simp only [opProdMake, hu, exbind_ok]
      rw [if_neg ht]
  · intro d1 d2 hd1 hd2 hnc
    have hu : domainUnion o1.domainD o2.domainD = Except.error ("domain mismatch") := by
      rw [hd1, hd2]
      simp only [domainUnion]
      rw [union_err_of_not_compatible [d1, d2] hnc]
      rfl
    constructor
    · simp only [opProdMake, hu, exbind_error]
    · simp only [opSumMake, hu, exbind_error]
  · intro op hok x hx
    have hwf : op.WF := by
      rcases hok with hok | hok | hok
      · rw [mkChain] at hok
        by_cases hp : chainPairsOk [o1, o2] = true
        · rw [if_pos hp] at hok
          cases hok
          simp only [Op.WF, chainWFs]
          exact ⟨by simp, hp, hw1, hw2, trivial⟩
        · rw [if_neg hp] at hok
          exact Except.noConfusion hok
      · cases hu : domainUnion o1.domainD o2.domainD with
        | error e =>
          simp only [opProdMake, hu, exbind_error] at hok
          exact Except.noConfusion hok
        | ok u =>
          simp only [opProdMake, hu, exbind_ok] at hok
          by_cases ht : o1.targetD = o2.targetD
          · rw [if_pos ht] at hok
            cases hok
            simp only [Op.WF]
            exact ⟨⟨u, hu⟩, ht, hw1, hw2⟩
          · rw [if_neg ht] at hok
            exact Except.noConfusion hok
      · cases hu : domainUnion o1.domainD o2.domainD with
        | error e =>
          simp only [opSumMake, hu, exbind_error] at hok
          exact Except.noConfusion hok
        | ok u =>
          simp only [opSumMake, hu, exbind_ok] at hok
          cases hut : domainUnion o1.targetD o2.targetD with
          | error e =>
            rw [hut] at hok
            simp only [exbind_error] at hok
            exact Except.noConfusion hok
          | ok ut =>
            rw [hut] at hok
            simp only [exbind_ok] at hok
            cases hok
            simp only [Op.WF]
            exact ⟨⟨u, hu⟩, ⟨ut, hut⟩, hw1, hw2⟩
    constructor
    · rcases evalV_sound op hwf x hx with ⟨y, hy, _⟩
      exact ⟨y, hy⟩
    · intro wm
      rcases evalL_sound op hwf x wm hx with ⟨L, hL, _⟩
      exact ⟨L, hL⟩

/-- Witness for C3: two concrete well-formed constant operators over `ℤ`; the
successfully constructed sum evaluates without an error. -/
theorem C3_construction_time_checks_witness :
    ∃ y, (Op.sum (Op.constOp (R := ℤ) (.dt 0) (.fld ⟨0, 1⟩))
      (Op.constOp (.dt 0) (.fld ⟨0, 1⟩))).evalV (.fld ⟨0, 5⟩) = Except.ok y := by
  have h := C3_construction_time_checks (Op.constOp (R := ℤ) (.dt 0) (.fld ⟨0, 1⟩))
    (Op.constOp (.dt 0) (.fld ⟨0, 1⟩)) trivial trivial
  exact (h.2.2.2 _ (Or.inr (Or.inr rfl)) (.fld ⟨0, 5⟩) rfl).1

/-- C4: for non-chain operators `a`, `b`, `c` with matching domains/targets,
`(a @ b) @ c` and `a @ (b @ c)` flatten to the very same single chain object
holding the leaf sequence `[a, b, c]` (no nested chain wrappers), and that
chain evaluates as the composition `a ∘ b ∘ c` on every input of its
domain — so both associations evaluate to identical results. -/
theorem C4_chain_flattening {R : Type} [CommRing R] (a b c : Op R)
    (ha : a.isChain = false) (hb : b.isChain = false) (hc : c.isChain = false)
    (hab : a.domainD = b.targetD) (hbc : b.domainD = c.targetD) :
    (∃ ab, opMatmul a b = Except.ok ab ∧
      opMatmul ab c = Except.ok (.chain [a, b, c])) ∧
    (∃ bc, opMatmul b c = Except.ok bc ∧
      opMatmul a bc = Except.ok (.chain [a, b, c])) ∧
    (∀ x : Val R, x.domain = (Op.chain [a, b, c]).domainD →
      (Op.chain [a, b, c]).evalV x =
        (c.evalV x >>= fun y => b.evalV y >>= fun z => a.evalV z)) := by
  have hu2 : ∀ p q : Op R, p.isChain = false → q.isChain = false →
      opMatmul p q = opChainMake [p, q] := fun _ _ _ _ => rfl
  have hmk3 : mkChain [a, b, c] = Except.ok (.chain [a, b, c]) := by
    rw [mkChain, if_pos]
    simp [chainPairsOk, hab, hbc]
  refine ⟨?_, ?_, ?_⟩
  · refine ⟨.chain [a, b], ?_, ?_⟩
    · rw [opMatmul, opChainMake, unpack_pair_nonchain a b ha hb []]
      exact mkChain_pair_ok a b hab
    · rw [opMatmul, opChainMake, unpackChain_cons_chain [a, b] [c] [],
        unpack_pair_nonchain a b ha hb [], List.nil_append,
        unpackChain_cons_nonchain c [] [a, b] hc, unpackChain_nil]
      exact hmk3
  · refine ⟨.chain [b, c], ?_, ?_⟩
    · rw [opMatmul, opChainMake, unpack_pair_nonchain b c hb hc []]
      exact mkChain_pair_ok b c hbc
    · rw [opMatmul, opChainMake, unpackChain_cons_nonchain a [.chain [b, c]] [] ha,
        List.nil_append, unpackChain_cons_chain [b, c] [] [a],
        unpack_pair_nonchain b c hb hc [a], unpackChain_nil]
      exact hmk3
  · intro x hx
    simp only [Op.domainD] at hx
    rw [show (Op.chain [a, b, c]).evalV x =
      (if x.domain = chainDom [a, b, c] then evalChainV [a, b, c] x
       else Except.error ("domain mismatch")) from rfl, if_pos hx]
    rw [show evalChainV [a, b, c] x =
      ((evalChainV [c] x >>= fun y => b.evalV y) >>= fun z => a.evalV z) from rfl]
    rw [show evalChainV [c] x = (Except.ok x >>= fun y => c.evalV y) from rfl, exbind_ok]
    cases hcx : c.evalV x with
    | error e => simp only [exbind_error]
    | ok y => simp only [exbind_ok]

/-- Witness for C4: three concrete non-chain pointwise operators over `ℤ`
whose domains and targets all coincide; both associations flatten to the one
chain `[a, b, c]`. -/
theorem C4_chain_flattening_witness :
    (Op.funcApplier (R := ℤ) (.dt 0) id id).isChain = false ∧
    (∃ ab, opMatmul (Op.funcApplier (R := ℤ) (.dt 0) id id)
        (Op.funcApplier (.dt 0) id id) = Except.ok ab ∧
      opMatmul ab (Op.funcApplier (.dt 0) id id) =
        Except.ok (.chain [Op.funcApplier (.dt 0) id id,
          Op.funcApplier (.dt 0) id id, Op.funcApplier (.dt 0) id id])) :=
  ⟨rfl, (C4_chain_flattening (Op.funcApplier (R := ℤ) (.dt 0) id id)
    (Op.funcApplier (.dt 0) id id) (Op.funcApplier (.dt 0) id id)
    rfl rfl rfl rfl rfl).1⟩

/-- The representation invariant `_flip_modes` maintains: adapters never wrap
adapters, and a transform code is one of 1, 2, 3
(`OperatorAdapter.__init__` asserts `1 <= trafo <= 3` and `_flip_modes`
always returns the wrapped operator or one flat adapter). -/
def LOp.flat {α : Type} : LOp α → Prop
  | .base _ => True
  | .adapter (.base _) t => 1 ≤ t ∧ t ≤ 3
  | .adapter (.adapter _ _) _ => False

/-- C5: flipping an `OperatorAdapter(op, t)` by a transform code `s`
(`1` = adjoint, `2` = inverse, `3` = adjoint-inverse) XORs the codes: it
returns the wrapped `op` itself when `s XOR t = 0` and the single flat
adapter with code `s XOR t` otherwise — never a nested adapter; in
particular the adjoint of the adjoint and the inverse of the inverse of a
flat operator are the original operator object, and the flattened adapter
applies every mode exactly as the nested composition of the two transforms
would. -/
theorem C5_adapter_xor_flattening {α : Type} (op : LOp α) (s t : ℕ)
    (hf : op.flat) (_hs : 1 ≤ s ∧ s ≤ 3) (_ht : 1 ≤ t ∧ t ≤ 3) :
    ((LOp.adapter op t).flipModes s =
      if s ^^^ t = 0 then op else LOp.adapter op (s ^^^ t)) ∧
    (op.adjointView.adjointView = op ∧ op.inverseView.inverseView = op) ∧
    (∀ m x, ((LOp.adapter op t).flipModes s).applyMode m x =
      (LOp.adapter (LOp.adapter op t) s).applyMode m x) := by
  refine ⟨rfl, ?_, ?_⟩
  · cases op with
    | base b => exact ⟨rfl, rfl⟩
    | adapter o t' =>
      cases o with
      | adapter o2 t2 => exact absurd hf (by simp [LOp.flat])
      | base b =>
        obtain ⟨hb1, hb2⟩ : 1 ≤ t' ∧ t' ≤ 3 := hf
        interval_cases t'
        · exact ⟨rfl, rfl⟩
        · exact ⟨rfl, rfl⟩
        · exact ⟨rfl, rfl⟩
  · intro m x
    by_cases h0 : s ^^^ t = 0
    · rw [show (LOp.adapter op t).flipModes s =
        (if s ^^^ t = 0 then op else LOp.adapter op (s ^^^ t)) from rfl, if_pos h0]
      rw [show (LOp.adapter (LOp.adapter op t) s).applyMode m x =
        op.applyMode ((m ^^^ s) ^^^ t) x from rfl]
      rw [Nat.xor_assoc, h0, Nat.xor_zero]
    · rw [show (LOp.adapter op t).flipModes s =
        (if s ^^^ t = 0 then op else LOp.adapter op (s ^^^ t)) from rfl, if_neg h0]
      rw [show (LOp.adapter op (s ^^^ t)).applyMode m x =
        op.applyMode (m ^^^ (s ^^^ t)) x from rfl]
      rw [show (LOp.adapter (LOp.adapter op t) s).applyMode m x =
        op.applyMode ((m ^^^ s) ^^^ t) x from rfl]
      rw [Nat.xor_assoc]

/-- Witness for C5: the concrete shift operator on `ℤ` with codes `s = 1`,
`t = 2`: flipping the adapter by the adjoint code yields the flat
adjoint-inverse adapter, and the double adjoint is the original object. -/
theorem C5_adapter_xor_flattening_witness :
    ((LOp.adapter (LOp.base (α := ℤ) ⟨fun _ x => x⟩) 2).flipModes 1 =
      if 1 ^^^ 2 = 0 then LOp.base (α := ℤ) ⟨fun _ x => x⟩
      else LOp.adapter (LOp.base (α := ℤ) ⟨fun _ x => x⟩) (1 ^^^ 2)) ∧
    (LOp.base (α := ℤ) ⟨fun _ x => x⟩).adjointView.adjointView =
      LOp.base (α := ℤ) ⟨fun _ x => x⟩ :=
  ⟨(C5_adapter_xor_flattening (LOp.base (α := ℤ) ⟨fun _ x => x⟩) 1 2
     trivial (by decide) (by decide)).1,
   (C5_adapter_xor_flattening (LOp.base (α := ℤ) ⟨fun _ x => x⟩) 1 2
     trivial (by decide) (by decide)).2.1.1⟩

/-- C6: `Linearization.make_partial_var(field, constants)` keeps the value
`field` and builds a block-diagonal Jacobian over `field.domain` acting
per key: a tangent component named in `constants` is frozen to zero, every
other component passes through unchanged; with empty `constants` the result
is exactly `make_var(field)` with its full identity Jacobian. -/
theorem C6_make_partial_var {R : Type} [CommRing R] (f : MultiField R)
    (cs : List String) (wm : Bool) :
    (Linearization.makePartVar f [] wm = Linearization.makeVar (.mf f) wm) ∧
    ((Linearization.makePartVar f cs wm).val = .mf f) ∧
    (cs ≠ [] →
      (Linearization.makePartVar f cs wm).jac.dom = .md f.domain ∧
      (Linearization.makePartVar f cs wm).jac.tgt = .md f.domain ∧
      ∀ t : MultiField R, ∃ u : MultiField R,
        (Linearization.makePartVar f cs wm).jac.app (.mf t) = .mf u ∧
        ∀ k, u.lookup k = (t.lookup k).map
          (fun g => if k ∈ cs then ⟨g.dom, 0⟩ else g)) := by
  refine ⟨rfl, ?_, ?_⟩
  · cases cs with
    | nil => rfl
    | cons c0 cr => rfl
  · intro hne
    cases cs with
    | nil => exact absurd rfl hne
    | cons c0 cr =>
      refine ⟨rfl, rfl, fun t => ?_⟩
      refine ⟨_, rfl, fun k => ?_⟩
      have hm := lookA_map2 t.val
        (fun p => (⟨p.2.dom, (if p.1 ∈ c0 :: cr then (0 : R) else 1) * p.2.v⟩ : Field R)) k
      refine hm.trans ?_
      show _ = Option.map (fun g => if k ∈ c0 :: cr then (⟨g.dom, 0⟩ : Field R) else g)
        (lookA t.val k)
      cases hkv : lookA t.val k with
      | none => rfl
      | some g =>
        simp only [Option.map_some]
        by_cases hk : k ∈ c0 :: cr
        · simp [hk]
        · simp [hk]

/-- C7: `MultiDomain.union` succeeds exactly when every key shared by two of
the inputs maps to an identical DomainTuple in both; on success the result
binds a key to `v` iff some input does, it raises `"domain mismatch"` on any
conflicting key, and a union of all-identical inputs returns that very
object. -/
theorem C7_multidomain_union (inp : List MultiDomain) :
    (compatible inp → ∃ md, MultiDomain.union inp = Except.ok md ∧
      ∀ k v, md.lookup k = some v ↔ ∃ d ∈ inp, d.lookup k = some v) ∧
    (¬ compatible inp → MultiDomain.union inp = Except.error ("domain mismatch")) ∧
    (∀ d, inp ≠ [] → (∀ x ∈ inp, x = d) → MultiDomain.union inp = Except.ok d) := by
  refine ⟨union_ok_of_compatible inp, union_err_of_not_compatible inp, ?_⟩
  intro d hne hall
  rw [MultiDomain.union, dedup_all_eq inp d hne hall]

/-- Witness for C7: the union of two copies of the same concrete MultiDomain
is compatible and returns that object. -/
theorem C7_multidomain_union_witness :
    MultiDomain.union [MultiDomain.make [("a", 1)], MultiDomain.make [("a", 1)]] =
      Except.ok (MultiDomain.make [("a", 1)]) := by
  have h := C7_multidomain_union [MultiDomain.make [("a", 1)], MultiDomain.make [("a", 1)]]
  refine h.2.2 (MultiDomain.make [("a", 1)]) (by simp) ?_
  intro x hx
  rcases List.mem_cons.mp hx with hx | hx
  · exact hx
  · rw [List.mem_singleton] at hx
    exact hx

theorem addConst_domain {R : Type} [CommRing R] (x : Val R) (c : R) :
    (x.addConst c).domain = x.domain := by
  cases x with
  | fld f => rfl
  | mf m =>
    rw [Val.addConst, Val.domain, Val.domain]
    congr 1
    exact mapped_domain m (fun p => ⟨p.2.dom, p.2.v + c⟩) (fun p _ => rfl)

theorem subConst_domain {R : Type} [CommRing R] (x : Val R) (c : R) :
    (x.subConst c).domain = x.domain := by
  cases x with
  | fld f => rfl
  | mf m =>
    rw [Val.subConst, Val.domain, Val.domain]
    congr 1
    exact mapped_domain m (fun p => ⟨p.2.dom, p.2.v - c⟩) (fun p _ => rfl)

theorem flexAddSub_fld_domain {R : Type} [CommRing R] (x : Val R) (f : Field R)
    (neg : Bool) : (x.flexAddSub (.fld f) neg).domain = x.domain := by
  cases x with
  | fld g => rfl
  | mf m => rfl

theorem make_ok {R : Type} (v : Val R) (j : LinOp R) (met : Option (LinOp R))
    (wm : Bool) (h : v.domain = j.tgt) :
    Linearization.make v j met wm = .ok ⟨v, j, met, wm⟩ := by
  simp only [Linearization.make]
  rw [if_pos h]

/-- C8: adding or subtracting a scalar, Field or MultiField constant to a
Linearization shifts only the value; the returned Linearization holds the
identical Jacobian and metric objects of the original (the MultiField case
asks that the shift not enlarge the value's domain, which is exactly when
`Linearization.new` accepts the shifted value). -/
theorem C8_value_shift_frame {R : Type} [CommRing R] (L : Linearization R)
    (h : L.val.domain = L.jac.tgt) :
    (∀ c : R,
      L.addOp (.scalar c) = .ok ⟨L.val.addConst c, L.jac, L.metric, L.wantMetric⟩ ∧
      L.subOp (.scalar c) = .ok ⟨L.val.subConst c, L.jac, L.metric, L.wantMetric⟩) ∧
    (∀ f : Field R,
      L.addOp (.field f) =
        .ok ⟨L.val.flexAddSub (.fld f) false, L.jac, L.metric, L.wantMetric⟩ ∧
      L.subOp (.field f) =
        .ok ⟨L.val.flexAddSub (.fld f) true, L.jac, L.metric, L.wantMetric⟩) ∧
    (∀ m : MultiField R, (L.val.flexAddSub (.mf m) false).domain = L.val.domain →
      L.addOp (.multifield m) =
        .ok ⟨L.val.flexAddSub (.mf m) false, L.jac, L.metric, L.wantMetric⟩) ∧
    (∀ m : MultiField R, (L.val.flexAddSub (.mf m) true).domain = L.val.domain →
      L.subOp (.multifield m) =
        .ok ⟨L.val.flexAddSub (.mf m) true, L.jac, L.metric, L.wantMetric⟩) := by
  refine ⟨fun c => ⟨?_, ?_⟩, fun f => ⟨?_, ?_⟩, fun m hm => ?_, fun m hm => ?_⟩
  · exact make_ok _ _ _ _ (by rw [addConst_domain, h])
  · exact make_ok _ _ _ _ (by rw [subConst_domain, h])
  · exact make_ok _ _ _ _ (by rw [flexAddSub_fld_domain, h])
  · exact make_ok _ _ _ _ (by rw [flexAddSub_fld_domain, h])
  · exact make_ok _ _ _ _ (by rw [hm, h])
  · exact make_ok _ _ _ _ (by rw [hm, h])

/-- Witness for C8: a concrete Linearization over `ℤ` with matching value
domain and Jacobian target; adding the scalar 5 shifts the value and keeps
the identity Jacobian and the absent metric. -/
theorem C8_value_shift_frame_witness :
    (Val.fld (R := ℤ) ⟨0, 3⟩).domain = (LinOp.idOp (R := ℤ) (.dt 0)).tgt ∧
    Linearization.addOp ⟨.fld ⟨0, 3⟩, LinOp.idOp (.dt 0), none, false⟩
        (.scalar (5 : ℤ)) =
      .ok ⟨(Val.fld ⟨0, 3⟩).addConst 5, LinOp.idOp (.dt 0), none, false⟩ :=
  ⟨rfl, ((C8_value_shift_frame ⟨.fld ⟨0, 3⟩, LinOp.idOp (.dt 0), none, false⟩ rfl).1 5).1⟩

/-- C9: a MultiDomain built through `MultiDomain.make` stores its keys in
strictly ascending string order regardless of the insertion order of the
input bindings, and `make` is content-interning: two inputs (without repeated
keys) produce the very same MultiDomain exactly when their key-to-DomainTuple
mappings agree, so MultiDomain equality coincides with object identity. -/
theorem C9_make_sorted_interning (l1 l2 : AL DomainTuple)
    (h1 : (l1.map Prod.fst).Nodup) (h2 : (l2.map Prod.fst).Nodup) :
    (MultiDomain.make l1).keys.Pairwise (· < ·) ∧
    (MultiDomain.make l1 = MultiDomain.make l2 ↔ ∀ k, lookA l1 k = lookA l2 k) := by
  constructor
  · have hs : ALSorted (MultiDomain.make l1).val := (MultiDomain.make l1).property
    rw [ALSorted_iff_keys] at hs
    exact hs.imp (fun hab => (keyLt_iff _ _).mp hab)
  · constructor
    · intro he k
      rw [← mkAL_lookA l1 h1 k, ← mkAL_lookA l2 h2 k]
      have : (MultiDomain.make l1).val = (MultiDomain.make l2).val := by rw [he]
      rw [show mkAL l1 = (MultiDomain.make l1).val from rfl,
        show mkAL l2 = (MultiDomain.make l2).val from rfl, this]
    · intro he
      apply multiDomain_ext
      intro k
      show lookA (mkAL l1) k = lookA (mkAL l2) k
      rw [mkAL_lookA l1 h1 k, mkAL_lookA l2 h2 k]
      exact he k

/-- Witness for C9: two insertion orders of the same two bindings; their keys
are duplicate-free and the two `make` results satisfy the sortedness and
interning properties. -/
theorem C9_make_sorted_interning_witness :
    ((([("b", 2), ("a", 1)] : AL DomainTuple).map Prod.fst).Nodup ∧
      (([("a", 1), ("b", 2)] : AL DomainTuple).map Prod.fst).Nodup) ∧
    ((MultiDomain.make [("b", 2), ("a", 1)]).keys.Pairwise (· < ·) ∧
      (MultiDomain.make [("b", 2), ("a", 1)] = MultiDomain.make [("a", 1), ("b", 2)] ↔
        ∀ k, lookA [("b", 2), ("a", 1)] k = lookA [("a", 1), ("b", 2)] k)) :=
  ⟨⟨by decide, by decide⟩,
    C9_make_sorted_interning [("b", 2), ("a", 1)] [("a", 1), ("b", 2)]
      (by decide) (by decide)⟩

/-- C10: `Linearization` addition, subtraction and multiplication against an
operand that is neither a Linearization, a scalar, a Field nor a MultiField
fall through every `isinstance` branch and return python `None` instead of
raising. -/
theorem C10_other_operand_returns_none {R : Type} [CommRing R] [DecidableEq R]
    (L : Linearization R) :
    L.addOp .other = .noneRes ∧ L.subOp .other = .noneRes ∧
    L.mulOp .other = .noneRes ∧
    L.myadd .other false = .noneRes ∧ L.myadd .other true = .noneRes :=
  ⟨rfl, rfl, rfl, rfl, rfl⟩

/-- Modelled from the spec: `MultiField` construction from a dict — the
bindings are stored key-sorted, exactly like the MultiDomain's keys. -/
def mkMF {R : Type} (l : AL (Field R)) : MultiField R :=
  ⟨mkAL l, mkAL_sorted l⟩

/-- Component access of the concrete test operators (`FieldAdapter`-style):
the value of component `k`, defaulting to zero. -/
def compVal {R : Type} [CommRing R] (x : Val R) (k : String) : R :=
  match x with
  | .fld f => f.v
  | .mf m =>
    match lookA m.val k with
    | some f => f.v
    | none => 0

/-- First summand of the C2 scenario: a leaf operator `{a} → {k}` copying
component `a` into output key `k`. -/
def C2o1 : Op ℤ :=
  .leaf (.md (MultiDomain.make [("a", 1)])) (.md (MultiDomain.make [("k", 9)]))
    (fun x => .mf (mkMF [("k", ⟨9, compVal x "a"⟩)]))
    (fun _ => LinOp.idOp (.md (MultiDomain.make [("k", 9)])))

/-- Second summand of the C2 scenario: a leaf operator `{b1, b2} → {k}`
writing `b1 + b2` into output key `k`. -/
def C2o2 : Op ℤ :=
  .leaf (.md (MultiDomain.make [("b1", 2), ("b2", 3)]))
    (.md (MultiDomain.make [("k", 9)]))
    (fun x => .mf (mkMF [("k", ⟨9, compVal x "b1" + compVal x "b2"⟩)]))
    (fun _ => LinOp.idOp (.md (MultiDomain.make [("k", 9)])))

/-- The C2 sum operator `{a, b1, b2} → {k}`. -/
def C2S : Op ℤ := .sum C2o1 C2o2

/-- The constant input of the C2 scenario: `a = 2`, `b1 = 3` (key `b2` stays
variable, so neither summand's output is actually constant). -/
def C2c : Val ℤ := .mf (mkMF [("a", ⟨1, 2⟩), ("b1", ⟨2, 3⟩)])

/-- A full input extending the constant part with `b2 = 5`. -/
def C2x5 : Val ℤ := .mf (mkMF [("a", ⟨1, 2⟩), ("b1", ⟨2, 3⟩), ("b2", ⟨3, 5⟩)])

/-- The same full input with `b2 = 7` instead. -/
def C2x7 : Val ℤ := .mf (mkMF [("a", ⟨1, 2⟩), ("b1", ⟨2, 3⟩), ("b2", ⟨3, 7⟩)])

/-- C2 (code bug): `simplify_for_constant_input` of the sum with `{a, b1}`
held constant returns the folded constant `{k: 2}` — collected from the
first summand and never re-filtered when the second summand reports `None`
(`_ConstCollector.add`'s `None` branch only extends `_nc`) — although the
true output at key `k` is `2 + b1 + b2`, which varies with the non-constant
component `b2` (`k = 10` at `b2 = 5` and `k = 12` at `b2 = 7`): an output
key is reported constant that is not constant in both summands, so the
folded constant is not semantically transparent. -/
theorem C2_sum_collector_staleness :
    C2S.simplifyConst (some C2c) =
      Except.ok (some (.mf (mkMF [("k", ⟨9, 2⟩)])),
        .sum (.constOp (.md (MultiDomain.make [("a", 1)]))
          (.mf (mkMF [("k", ⟨9, 2⟩)]))) C2o2) ∧
    C2S.evalV C2x5 = Except.ok (.mf (mkMF [("k", ⟨9, 10⟩)])) ∧
    C2S.evalV C2x7 = Except.ok (.mf (mkMF [("k", ⟨9, 12⟩)])) :=
  ⟨rfl, rfl, rfl⟩

/-- A `FieldAdapter`-style linear leaf: extract component `k` (a DomainTuple
`dId` component of a MultiDomain) onto the plain target DomainTuple `tgt`;
being linear, its point Jacobian is the map itself. -/
def keyAdapter {R : Type} [CommRing R] (k : String) (dId tgt : ℕ) : Op R :=
  .leaf (.md (MultiDomain.make [(k, dId)])) (.dt tgt)
    (fun x => .fld ⟨tgt, compVal x k⟩)
    (fun _ => ⟨.md (MultiDomain.make [(k, dId)]), .dt tgt,
      fun x => .fld ⟨tgt, compVal x k⟩⟩)

/-- The C1 operator `f = e(a) * b` over the MultiDomain `{a: 1, b: 2}`: the
chain of the pointwise applier of `e` (with its exact derivative `e`, as
`ptw_dict` registers for `exp`) after the `a`-adapter, multiplied by the
`b`-adapter; instantiated at `e = Real.exp` this is the spec's scenario. -/
def C1f {R : Type} [CommRing R] (e : R → R) : Op R :=
  .prod (.chain [.funcApplier (.dt 5) e e, keyAdapter "a" 1 5]) (keyAdapter "b" 2 5)

/-- The operator `simplify_for_constant_input` rewrites the C1 scenario to:
the product of the `_ConstantOperator` folding `e(a)` over the UNCHANGED
subdomain `{a: 1}` with the untouched `b`-adapter. -/
def C1rw {R : Type} [CommRing R] (e : R → R) : Op R :=
  .prod (.constOp (.md (MultiDomain.make [("a", 1)])) (.fld ⟨5, e 0⟩))
    (keyAdapter "b" 2 5)

/-- The C1 input `a = 0, b = 2`. -/
def C1x {R : Type} [CommRing R] : Val R := .mf (mkMF [("a", ⟨1, 0⟩), ("b", ⟨2, 2⟩)])

/-- The C1 constant part `{a: 0}`. -/
def C1ca {R : Type} [CommRing R] : Val R := .mf (mkMF [("a", ⟨1, 0⟩)])

/-- The C1 tangent `(da, db) = (1, 0)`. -/
def C1t10 {R : Type} [CommRing R] : Val R := .mf (mkMF [("a", ⟨1, 1⟩), ("b", ⟨2, 0⟩)])

/-- The C1 tangent `(da, db) = (0, 1)`. -/
def C1t01 {R : Type} [CommRing R] : Val R := .mf (mkMF [("a", ⟨1, 0⟩), ("b", ⟨2, 1⟩)])

/-- C1 (amended): in the scenario `f = e(a) * b` over `{a: D1, b: D2}` with
`e(0) = 1` (as for `exp`), the value at `a = 0, b = 2` is `2`, the Jacobian
maps the tangent `(1, 0)` to `2` and `(0, 1)` to `1`, and folding `{a: 0}`
as constant rewrites `f` to the product of a `_ConstantOperator` with the
`b`-adapter whose domain is STILL the full `{a: D1, b: D2}` (the folded
branch keeps its subdomain; it is not dropped as the spec stated) and which
evaluates on the full input to `b` directly. -/
theorem C1_exp_prod_scenario {R : Type} [CommRing R] (e : R → R) (he : e 0 = 1) :
    ((C1f e).evalV C1x = Except.ok (.fld ⟨5, 2⟩)) ∧
    (((C1f e).evalL C1x false).map (fun L => L.val) = Except.ok (.fld ⟨5, 2⟩)) ∧
    (((C1f e).evalL C1x false).map (fun L => L.jac.app C1t10) =
      Except.ok (.fld ⟨5, 2⟩)) ∧
    (((C1f e).evalL C1x false).map (fun L => L.jac.app C1t01) =
      Except.ok (.fld ⟨5, 1⟩)) ∧
    ((C1f e).simplifyConst (some C1ca) = Except.ok (none, C1rw e)) ∧
    ((C1rw e).domainD = .md (MultiDomain.make [("a", 1), ("b", 2)])) ∧
    ((C1rw e).evalV C1x = Except.ok (.fld ⟨5, 2⟩)) := by
  have h2 : e 0 * 2 = 2 := by rw [he, one_mul]
  refine ⟨?_, ?_, ?_, ?_, rfl, rfl, ?_⟩
  · have h : (C1f e).evalV C1x = Except.ok (.fld ⟨5, e 0 * 2⟩) := rfl
    rw [h, h2]
  · have h : ((C1f e).evalL C1x false).map (fun L => L.val) =
      Except.ok (.fld ⟨5, e 0 * 2⟩) := rfl
    rw [h, h2]
  · have h : ((C1f e).evalL C1x false).map (fun L => L.jac.app C1t10) =
      Except.ok (.fld ⟨5, e 0 * 0 + 2 * (e 0 * 1)⟩) := rfl
    rw [h, he]
    have : (1 : R) * 0 + 2 * (1 * 1) = 2 := by ring
    rw [this]
  · have h : ((C1f e).evalL C1x false).map (fun L => L.jac.app C1t01) =
      Except.ok (.fld ⟨5, e 0 * 1 + 2 * (e 0 * 0)⟩) := rfl
    rw [h, he]
    have : (1 : R) * 1 + 2 * (1 * 0) = 1 := by ring
    rw [this]
  · have h : (C1rw e).evalV C1x = Except.ok (.fld ⟨5, e 0 * 2⟩) := rfl
    rw [h, h2]

/-- Witness for C1: the scenario instantiated at the real exponential, whose
hypothesis `exp 0 = 1` is `Real.exp_zero`. -/
theorem C1_exp_prod_scenario_witness :
    Real.exp 0 = 1 ∧ (C1f Real.exp).evalV C1x = Except.ok (.fld ⟨5, 2⟩) :=
  ⟨Real.exp_zero, (C1_exp_prod_scenario Real.exp Real.exp_zero).1⟩

/-- Counterexample to C1 as stated: at the concrete scenario `exp(a) * b`
with `{a: 0}` folded, the rewritten operator's domain is not `{b: D2}` —
the fold keeps the constant branch's subdomain, so the domain stays the
full `{a: D1, b: D2}`. -/
theorem C1_fold_domain_counterexample :
    (C1f (R := ℝ) Real.exp).simplifyConst (some C1ca) =
      Except.ok (none, C1rw Real.exp) ∧
    (C1rw (R := ℝ) Real.exp).domainD ≠ .md (MultiDomain.make [("b", 2)]) :=
  ⟨rfl, by decide⟩

end Nifty
